import Mathlib

/-!
Verification of the algorithmic core of the `maggot_models` repository.

Two subsystems are embedded shallowly and verified:

* `src/traverse/random_walk.py`: `to_markov_matrix`, `generate_random_walks`
  (the batch random-walk generator with its four outcome counters) and
  `generate_random_walks_fast` (the `numba`-compiled variant built on
  `_simulate_walk`).  Probabilities are embedded as exact rationals; the call
  `np.random.choice(n_verts, p=prob_mat[curr_ind])` is modelled by an oracle
  `choose : Nat -> List Rat -> Nat` receiving the index of the draw (the
  position in the stream of random numbers consumed so far) and the
  probability row, so that two implementations run "from the same
  random-generator state" iff they are run with the same `choose` oracle.
  The `while` loop of the source decrements the quantity
  `max_walk + 1 - n_steps` on every iteration, so it executes at most
  `max_walk + 1` iterations; it is embedded with an explicit fuel parameter
  instantiated at `max_walk + 2`, which is strictly larger, and the fuel-0
  branch returns the loop state unchanged exactly as loop exit does.

* `src/cluster/divisive.py`: `DivisiveCluster.fit`, `DivisiveCluster.predict`
  and `DivisiveCluster.build_linkage`.  The external model-selection oracle
  (`GaussianCluster` from `graspy`, an external capability per the spec) is
  embedded as a function from a sample list to a fitted model: a selected
  component count together with a pointwise hard-label function.  Cluster
  names, built in the source by string concatenation of the digits 0/1, are
  embedded as the branch-decision lists those strings denote.  Python's
  recursion (bounded by the interpreter stack) is embedded with a fuel
  parameter.  The in-place `_ind`/`_n_clusters` attribute mutation performed
  by `build_linkage` is embedded by threading an explicit `LinkState` whose
  association list `info` plays the role of the attributes stored on the
  (uniquely named) tree nodes; `left_node.parent` is recovered as the name of
  the left child minus its final branch decision, which is exactly the parent
  in every tree built by `fit`.
-/

/-! ## Transition-matrix construction (`to_markov_matrix`, source lines 5-10) -/

/-- Effective divisor used for one row: `row_sums[row_sums == 0] = 1` plugs
the holes before dividing. -/
def markovDivisor (row : List ℚ) : ℚ :=
  if row.sum = 0 then 1 else row.sum

/-- Row normalization of a single row of the adjacency matrix. -/
def markovRow (row : List ℚ) : List ℚ :=
  row.map (fun x => x / markovDivisor row)

/-- Embedding of `to_markov_matrix(adj)` (source lines 5-10).  The source
copies `adj` first and mutates only the copy, so the embedding is a pure
function of the input. -/
def to_markov_matrix (adj : List (List ℚ)) : List (List ℚ) :=
  adj.map markovRow

/-! ## Batch random-walk generator (`generate_random_walks`, source lines 13-51) -/

/-- Configuration shared by both batch generators: the sampling oracle, the
transition matrix `prob_mat`, the stop set `out_inds`, and the parameters
`n_walks` and `max_walk`. -/
structure WalkCfg where
  choose : Nat → List ℚ → Nat
  probMat : List (List ℚ)
  outInds : List Nat
  nWalks : Nat
  maxWalk : Nat

/-- Row of the transition matrix for a node (`prob_mat[curr_ind]`). -/
def WalkCfg.row (cfg : WalkCfg) (i : Nat) : List ℚ :=
  cfg.probMat.getD i []

/-- Embedding of `dead_inds = np.where(prob_mat.sum(axis=1) == 0)[0]`. -/
def WalkCfg.deadInds (cfg : WalkCfg) : List Nat :=
  (List.range cfg.probMat.length).filter (fun i => decide ((cfg.probMat.getD i []).sum = 0))

/-- Result of one trajectory: the path, the visit events `(node, len(path))`
appended to `visit_orders` in order, the final step count and current node,
and the random-stream position after the walk. -/
structure WalkRun where
  path : List Nat
  visits : List (Nat × Nat)
  steps : Nat
  last : Nat
  counter : Nat
deriving DecidableEq, Repr

/-- The `while` loop of `generate_random_walks` (source lines 27-36): while
the current node is not a stop node, the step budget is not exhausted and the
current node is not dead, draw the next node, advance, append it to the path
and record the visit.  `fuel` bounds the iterations; the loop guard
`n_steps <= max_walk` guarantees at most `max_walk + 1` iterations, so every
caller passes fuel `max_walk + 2` and the fuel-0 branch is never the reason
the loop stops. -/
def walkLoop (cfg : WalkCfg) :
    Nat → Nat → Nat → Nat → List Nat → List (Nat × Nat) → WalkRun
  | 0, t, curr, nSteps, path, visits => ⟨path, visits, nSteps, curr, t⟩
  | fuel+1, t, curr, nSteps, path, visits =>
    if curr ∉ cfg.outInds ∧ nSteps ≤ cfg.maxWalk ∧ curr ∉ cfg.deadInds then
      let next := cfg.choose t (cfg.row curr)
      walkLoop cfg fuel (t+1) next (nSteps+1) (path ++ [next])
        (visits ++ [(next, path.length + 1)])
    else ⟨path, visits, nSteps, curr, t⟩

/-- One trajectory of `generate_random_walks` from source `s`, starting at
random-stream position `t`: `curr_ind = s; n_steps = 0; path = [s]` and the
initial visit record `visit_orders[s].append(len(path))`. -/
def simWalk (cfg : WalkCfg) (s t : Nat) : WalkRun :=
  walkLoop cfg (cfg.maxWalk + 2) t s 0 [s] [(s, 1)]

/-- The four termination reasons counted in `stop_reasons` (source lines
37-47): index 0 success, index 1 dead-end, index 2 budget exceeded, index 3
the catch-all `else`. -/
inductive StopReason where
  | success
  | deadEnd
  | truncated
  | other
deriving DecidableEq, Repr

/-- The `if/elif/elif/else` classification of a finished trajectory
(source lines 37-47). -/
def classify (cfg : WalkCfg) (r : WalkRun) : StopReason :=
  if r.last ∈ cfg.outInds then .success
  else if r.last ∈ cfg.deadInds then .deadEnd
  else if r.steps > cfg.maxWalk then .truncated
  else .other

/-- The inner `for n in range(n_walks)` loop: `n` trajectories from source
`s`, threading the random-stream position from one trajectory to the next. -/
def runWalks (cfg : WalkCfg) (s : Nat) : Nat → Nat → List WalkRun × Nat
  | 0, t => ([], t)
  | n+1, t =>
    let r := simWalk cfg s t
    let rest := runWalks cfg s n r.counter
    (r :: rest.1, rest.2)

/-- The outer `for s in from_inds` loop, producing every trajectory of the
batch in execution order. -/
def runSources (cfg : WalkCfg) : List Nat → Nat → List WalkRun
  | [], _ => []
  | s :: ss, t =>
    let rs := runWalks cfg s cfg.nWalks t
    rs.1 ++ runSources cfg ss rs.2

/-- Number of trajectories of a batch classified with a given reason. -/
def countReason (cfg : WalkCfg) (runs : List WalkRun) (c : StopReason) : Nat :=
  (runs.filter (fun r => decide (classify cfg r = c))).length

/-- Aggregate output of `generate_random_walks`: the collected `sm_paths`,
the flattened visit events (the per-node dictionary `visit_orders` is
recovered by `visitOrder`), and the four counters `stop_reasons`. -/
structure RunOutput where
  smPaths : List (List Nat)
  visits : List (Nat × Nat)
  reasons : Nat × Nat × Nat × Nat
deriving DecidableEq, Repr

/-- Embedding of `generate_random_walks` (source lines 13-51).  A finished
trajectory contributes its path to `sm_paths` when it ended on a stop node,
or when it dead-ended and `return_stuck` is set; the counters record the
classification of every trajectory. -/
def generate_random_walks (cfg : WalkCfg) (fromInds : List Nat)
    (returnStuck : Bool) : RunOutput :=
  let runs := runSources cfg fromInds 0
  { smPaths := runs.filterMap (fun r =>
      match classify cfg r with
      | .success => some r.path
      | .deadEnd => if returnStuck then some r.path else none
      | _ => none)
    visits := runs.flatMap (fun r => r.visits)
    reasons := (countReason cfg runs .success, countReason cfg runs .deadEnd,
                countReason cfg runs .truncated, countReason cfg runs .other) }

/-- The per-node record `visit_orders[v]`: the dictionary appends are
chronological, so the record of `v` is the projection of the flattened event
list to the events at `v`. -/
def visitOrder (visits : List (Nat × Nat)) (v : Nat) : List Nat :=
  (visits.filter (fun e => e.1 == v)).map (fun e => e.2)

/-! ## Fast batch generator (`_simulate_walk` and `generate_random_walks_fast`,
source lines 64-105) -/

/-- The `while` loop of `_simulate_walk` (source lines 70-79); its body is
verbatim the loop of `generate_random_walks`, and it is embedded by a
separate definition so that the two can be compared. -/
def fastWalkLoop (cfg : WalkCfg) :
    Nat → Nat → Nat → Nat → List Nat → List (Nat × Nat) → WalkRun
  | 0, t, curr, nSteps, path, visits => ⟨path, visits, nSteps, curr, t⟩
  | fuel+1, t, curr, nSteps, path, visits =>
    if curr ∉ cfg.outInds ∧ nSteps ≤ cfg.maxWalk ∧ curr ∉ cfg.deadInds then
      let next := cfg.choose t (cfg.row curr)
      fastWalkLoop cfg fuel (t+1) next (nSteps+1) (path ++ [next])
        (visits ++ [(next, path.length + 1)])
    else ⟨path, visits, nSteps, curr, t⟩

/-- Embedding of `_simulate_walk` (source lines 64-83): run the loop and
return the path only when it ended on a stop node, together with the visit
events it appended to `visit_orders` and the new random-stream position. -/
def simulate_walk (cfg : WalkCfg) (s t : Nat) :
    Option (List Nat) × List (Nat × Nat) × Nat :=
  let r := fastWalkLoop cfg (cfg.maxWalk + 2) t s 0 [s] [(s, 1)]
  (if r.last ∈ cfg.outInds then some r.path else none, r.visits, r.counter)

/-- Inner loop of `generate_random_walks_fast` over `range(n_walks)`. -/
def runWalksFast (cfg : WalkCfg) (s : Nat) :
    Nat → Nat → List (Option (List Nat) × List (Nat × Nat)) × Nat
  | 0, t => ([], t)
  | n+1, t =>
    let r := simulate_walk cfg s t
    let rest := runWalksFast cfg s n r.2.2
    ((r.1, r.2.1) :: rest.1, rest.2)

/-- Outer loop of `generate_random_walks_fast` over `from_inds`. -/
def runSourcesFast (cfg : WalkCfg) :
    List Nat → Nat → List (Option (List Nat) × List (Nat × Nat))
  | [], _ => []
  | s :: ss, t =>
    let rs := runWalksFast cfg s cfg.nWalks t
    rs.1 ++ runSourcesFast cfg ss rs.2

/-- Output of the fast generator: only `sm_paths` and the visit events; the
fast variant maintains no `stop_reasons` counters. -/
structure FastOutput where
  smPaths : List (List Nat)
  visits : List (Nat × Nat)
deriving DecidableEq, Repr

/-- Embedding of `generate_random_walks_fast` (source lines 93-105): paths of
walks for which `_simulate_walk` returned a path, and the flattened visit
events. -/
def generate_random_walks_fast (cfg : WalkCfg) (fromInds : List Nat) : FastOutput :=
  let rs := runSourcesFast cfg fromInds 0
  { smPaths := rs.filterMap (fun r => r.1)
    visits := rs.flatMap (fun r => r.2) }

/-! ## Single-trajectory RandomWalk engine with `allow_loops` (spec 4.2)

Modelled from the spec: the class `src.traverse.RandomWalk` (with its
`allow_loops` option) is imported by the notebooks but its module is not
present under `src/`; only `random_walk.py` is.  Spec 4.2: a single active
token; at each step, sample the next node from the current node's row
distribution; if `allow_loops=False`, exclude already-visited nodes from the
candidate distribution and renormalize before sampling; stop on a stop node,
on zero outgoing candidate mass (dead end) or when the hop budget is
exhausted.  Renormalizing a nonzero candidate vector does not change which
nodes carry positive probability, so sampling is modelled by selecting an
element of the support of the candidate vector, the stream `sigma` choosing
which one. -/

/-- Modelled from the spec: support of the candidate distribution of spec
4.2 for the current row.  With `allowLoops = false` the already-visited nodes
are excluded before renormalizing, so they carry no mass. -/
def rwSupport (row : List ℚ) (visited : List Nat) (allowLoops : Bool) : List Nat :=
  if allowLoops then
    (List.range row.length).filter (fun i => decide (0 < row.getD i 0))
  else
    (List.range row.length).filter
      (fun i => decide (i ∉ visited) && decide (0 < row.getD i 0))

/-- Modelled from the spec: one `RandomWalk.start` traversal of spec 4.2,
driven by an integer stream `sigma`; the hop budget is the fuel.  An empty
support is a dead end; `sup.get?` of the stream value modulo the support size
selects the sampled node (any node of positive renormalized probability can
be the sample). -/
def rwWalk (sigma : Nat → Nat) (probMat : List (List ℚ)) (stopNodes : List Nat)
    (allowLoops : Bool) : Nat → Nat → List Nat → List Nat
  | 0, _, path => path
  | fuel+1, curr, path =>
    if curr ∈ stopNodes then path
    else
      let sup := rwSupport (probMat.getD curr []) path allowLoops
      match sup.get? (sigma path.length % sup.length) with
      | none => path
      | some next => rwWalk sigma probMat stopNodes allowLoops fuel next (path ++ [next])

/-- Modelled from the spec: a full traversal from a source starts with
`path = [source]`. -/
def rwStart (sigma : Nat → Nat) (probMat : List (List ℚ)) (stopNodes : List Nat)
    (allowLoops : Bool) (maxHops source : Nat) : List Nat :=
  rwWalk sigma probMat stopNodes allowLoops maxHops source [source]

/-! ## Divisive hierarchical clustering (`src/cluster/divisive.py`) -/

/-- A fitted external cluster model (spec 6: the `ClusterModel` capability,
`GaussianCluster` in the source, configured with component search space
`{1, 2}`): the selected component count `n_components_` and the hard-label
function `predict`.  The BIC table kept by the source is a diagnostic only
and enters no claim. -/
structure ClusterModel (α : Type) where
  nComponents : Nat
  predict : α → Nat

/-- The binary cluster tree built by `DivisiveCluster.fit`: every node owns
its `name` (the branch-decision path; the source's string of 0/1 digits) and
its sample subset; an internal node also stores the hard-label function of
its fitted model (`self.model_`). -/
inductive ClusterTree (α : Type) where
  | leaf (name : List Nat) (samples : List α)
  | node (name : List Nat) (samples : List α) (pred : α → Nat)
      (left right : ClusterTree α)

/-- Name of a tree node. -/
def nameOf {α : Type} : ClusterTree α → List Nat
  | .leaf nm _ => nm
  | .node nm _ _ _ _ => nm

/-- Sample subset owned by a tree node. -/
def samplesOf {α : Type} : ClusterTree α → List α
  | .leaf _ s => s
  | .node _ s _ _ _ => s

/-- Children, in order, as `anytree` exposes them (`self.children`). -/
def childrenOf {α : Type} : ClusterTree α → List (ClusterTree α)
  | .leaf _ _ => []
  | .node _ _ _ l r => [l, r]

/-- Whether the node is a leaf (`not node.children` in the source). -/
def isLeafB {α : Type} : ClusterTree α → Bool
  | .leaf _ _ => true
  | .node _ _ _ _ _ => false

/-- Left child (defaulting to the node itself on a leaf; only used on
internal nodes). -/
def leftOf {α : Type} : ClusterTree α → ClusterTree α
  | .leaf nm s => .leaf nm s
  | .node _ _ _ l _ => l

/-- Right child (defaulting to the node itself on a leaf; only used on
internal nodes). -/
def rightOf {α : Type} : ClusterTree α → ClusterTree α
  | .leaf nm s => .leaf nm s
  | .node _ _ _ _ r => r

/-- Embedding of `DivisiveCluster.fit` (source lines 30-75).  When the
sample count exceeds `min_split_samples` the external oracle is fit; if it
selects more than one component the samples are partitioned by the hard
labels (`indicator = pred_labels == 0`; `X[indicator], X[~indicator]`) and
the two children are fit recursively with names extended by 0 and 1.
`fuel` bounds the recursion depth exactly as the Python interpreter stack
does; at fuel 0 the node is left as created, an `UNFIT`-as-`LEAF` node that
no claim's instance reaches. -/
def DivisiveCluster.fit {α : Type} (oracle : List α → ClusterModel α)
    (minSplit : Nat) : Nat → List Nat → List α → ClusterTree α
  | 0, nm, X => .leaf nm X
  | fuel+1, nm, X =>
    if X.length > minSplit then
      let m := oracle X
      if m.nComponents ≠ 1 then
        ClusterTree.node nm X m.predict
          (DivisiveCluster.fit oracle minSplit fuel (nm ++ [0])
            (X.filter (fun x => m.predict x == 0)))
          (DivisiveCluster.fit oracle minSplit fuel (nm ++ [1])
            (X.filter (fun x => !(m.predict x == 0))))
      else .leaf nm X
    else .leaf nm X

/-- Positional merge of the two children's predictions back into one output,
embedding `preds[indicator] = left_preds; preds[~indicator] = right_preds`
(source lines 127-128).  The length-mismatch branches are unreachable: the
boolean mask hands exactly as many positions to each side as that side
returned predictions for. -/
def scatter {α β : Type} (pr : α → Bool) : List α → List β → List β → List β
  | [], _, _ => []
  | x :: xs, ls, rs =>
    if pr x then
      match ls with
      | [] => []
      | l :: ls2 => l :: scatter pr xs ls2 rs
    else
      match rs with
      | [] => []
      | r :: rs2 => r :: scatter pr xs ls rs2

/-- Embedding of `DivisiveCluster.predict` (source lines 107-129).  Besides
the predictions it returns the trace of model invocations: the sizes of the
inputs passed to `self.model_.predict`, in call order.  A leaf returns
`X.shape[0]` copies of its name and calls no model; an internal node first
calls its model on all of `X`, splits by the labels, recurses left then
right, and scatters the children's predictions back into position.  The
dtype-widening performed by the source to merge string labels of different
lengths is representation-free here because names are branch-decision
lists. -/
def DivisiveCluster.predict {α : Type} :
    ClusterTree α → List α → List (List Nat) × List Nat
  | .leaf nm _, X => (X.map (fun _ => nm), [])
  | .node _ _ p l r, X =>
    let lp := DivisiveCluster.predict l (X.filter (fun x => p x == 0))
    let rp := DivisiveCluster.predict r (X.filter (fun x => !(p x == 0)))
    (scatter (fun x => p x == 0) X lp.1 rp.1, X.length :: (lp.2 ++ rp.2))

/-- The leaf a point is routed to: descend through internal nodes by the
stored hard-label functions and return the leaf's branch path. -/
def routeLabel {α : Type} : ClusterTree α → α → List Nat
  | .leaf nm _, _ => nm
  | .node _ _ p l r, x => if p x == 0 then routeLabel l x else routeLabel r x

/-! ## Linkage construction (`DivisiveCluster.build_linkage`, source lines 143-209) -/

/-- Height of the tree; `anytree`'s `LevelOrderGroupIter` yields
`height + 1` nonempty groups. -/
def heightOf {α : Type} : ClusterTree α → Nat
  | .leaf _ _ => 0
  | .node _ _ _ l r => max (heightOf l) (heightOf r) + 1

/-- Nodes at a given depth below the root, left to right; this is the group
that `LevelOrderGroupIter` yields for that level. -/
def nodesAtDepth {α : Type} : Nat → ClusterTree α → List (ClusterTree α)
  | 0, t => [t]
  | _+1, .leaf _ _ => []
  | d+1, .node _ _ _ l r => nodesAtDepth d l ++ nodesAtDepth d r

/-- Leaf count of the tree (`num_leaves`, counted over `PostOrderIter` in
source lines 151-154). -/
def leafCount {α : Type} : ClusterTree α → Nat
  | .leaf _ _ => 1
  | .node _ _ _ l r => leafCount l + leafCount r

/-- Number of internal nodes of the tree. -/
def internalCount {α : Type} : ClusterTree α → Nat
  | .leaf _ _ => 0
  | .node _ _ _ l r => internalCount l + internalCount r + 1

/-- Consecutive pairing `group[2*i], group[2*i+1]` of a level group
(source lines 162-165). -/
def pairUp {β : Type} : List β → List (β × β)
  | x :: y :: rest => (x, y) :: pairUp rest
  | _ => []

/-- One row of the linkage matrix:
`[left_node._ind, right_node._ind, distance, n_clusters]` (source line 205).
Distances emitted by the source are the integers `g + 1`. -/
structure LinkRow where
  leftId : Nat
  rightId : Nat
  dist : Nat
  nClusters : Nat
deriving DecidableEq, Repr

/-- State threaded through `build_linkage`, embedding the source's local
variables `node_index`, `link_count`, `linkages`, `labels` and the
`_ind`/`_n_clusters` attributes that the source stores on the nodes
themselves, keyed here by the node names. -/
structure LinkState where
  nodeIndex : Nat
  linkCount : Nat
  rows : List LinkRow
  labels : List (List Nat)
  info : List (List Nat × Nat × Nat)
deriving DecidableEq, Repr

/-- Initial `build_linkage` state. -/
def initLinkState : LinkState :=
  { nodeIndex := 0, linkCount := 0, rows := [], labels := [], info := [] }

/-- Reading a node's stored `(_ind, _n_clusters)` back from the state; for
an internal node these were stored when its own children were merged on a
deeper level. -/
def lookupInfo : List (List Nat × Nat × Nat) → List Nat → Nat × Nat
  | [], _ => (0, 0)
  | e :: rest, nm => if e.1 = nm then e.2 else lookupInfo rest nm

/-- Resolving one partner node of a merge (source lines 169-180): a leaf is
assigned the next `node_index` (with `_n_clusters = 1`) and its name is
appended to `labels`; an internal node already carries its `_ind` and
`_n_clusters`. -/
def resolveNode {α : Type} (st : LinkState) (n : ClusterTree α) :
    (Nat × Nat) × LinkState :=
  if isLeafB n then
    ((st.nodeIndex, 1),
     { st with nodeIndex := st.nodeIndex + 1, labels := st.labels ++ [nameOf n] })
  else (lookupInfo st.info (nameOf n), st)

/-- Merging one sibling pair (source lines 162-205): resolve the two partner
nodes, store the parent's `_n_clusters` and `_ind = link_count + num_leaves`
under the parent's name (the left child's name without its final branch
decision), and append the linkage row. -/
def mergePair {α : Type} (numLeaves dist : Nat) (st : LinkState)
    (pr : ClusterTree α × ClusterTree α) : LinkState :=
  let l := resolveNode st pr.1
  let r := resolveNode l.2 pr.2
  let nClusters := l.1.2 + r.1.2
  let st2 := r.2
  { st2 with
    info := st2.info ++ [((nameOf pr.1).dropLast, st2.linkCount + numLeaves, nClusters)]
    linkCount := st2.linkCount + 1
    rows := st2.rows ++ [⟨l.1.1, r.1.1, dist, nClusters⟩] }

/-- The level groups processed by `build_linkage`: `levels[::-1][:-1]`, the
reversed level-order groups with the root group dropped, each paired up and
tagged with its distance `g + 1` (source lines 161-192). -/
def levelPairs {α : Type} (t : ClusterTree α) :
    List (List (ClusterTree α × ClusterTree α) × Nat) :=
  (List.range (heightOf t)).map
    (fun g => (pairUp (nodesAtDepth (heightOf t - g) t), g + 1))

/-- Final `build_linkage` state: fold the merge step over the level groups,
bottom level first. -/
def buildLinkageState {α : Type} (t : ClusterTree α) : LinkState :=
  (levelPairs t).foldl
    (fun st gp => gp.1.foldl (mergePair (leafCount t) gp.2) st) initLinkState

/-- Embedding of `DivisiveCluster.build_linkage` (source lines 143-209):
the linkage rows and the leaf label order. -/
def DivisiveCluster.build_linkage {α : Type} (t : ClusterTree α) :
    List LinkRow × List (List Nat) :=
  ((buildLinkageState t).rows, (buildLinkageState t).labels)

/-! ## Concrete instances used to settle the claims -/

/-- Oracle for the two-blob scenario of spec section 8: on the full
200-sample-free variant used here (two well-separated 50-point blobs,
samples identified with `0..99`), model selection picks 2 components at the
root with the hard labels separating the blobs, and 1 component on either
single blob. -/
def blobOracle : List Nat → ClusterModel Nat :=
  fun X =>
    if 100 ≤ X.length then ⟨2, fun x => if x < 50 then 0 else 1⟩
    else ⟨1, fun _ => 0⟩

/-- The fitted two-blob tree: `min_split_samples = 5`, samples `0..99`. -/
def blobTree : ClusterTree Nat :=
  DivisiveCluster.fit blobOracle 5 3 [] (List.range 100)

/-- A fitted singleton tree: three samples with `min_split_samples = 5`
stop the recursion immediately, so the fitted tree is its own leaf. -/
def singletonTree : ClusterTree Nat :=
  DivisiveCluster.fit blobOracle 5 3 [] [0, 1, 2]

/-- Oracle producing a depth-2 tree on the samples `0..9` with
`min_split_samples = 3`: the root splits `0..3` from `4..9`, the block
`0..3` splits again, and every other subset selects one component. -/
def unevenOracle : List Nat → ClusterModel Nat :=
  fun X =>
    if 10 ≤ X.length then ⟨2, fun x => if x < 4 then 0 else 1⟩
    else if X.length = 4 then ⟨2, fun x => if x < 2 then 0 else 1⟩
    else ⟨1, fun _ => 0⟩

/-- The fitted uneven-depth tree: one leaf at depth 1 and two at depth 2. -/
def unevenTree : ClusterTree Nat :=
  DivisiveCluster.fit unevenOracle 3 4 [] (List.range 10)

/-- A two-node walk configuration with hop budget 0 whose single trajectory
takes one step to node 1: used against the visitation-count bound. -/
def hopCfg : WalkCfg :=
  { choose := fun _ _ => 1, probMat := [[0, 1], [1, 0]],
    outInds := [], nWalks := 1, maxWalk := 0 }

/-- Walk configuration whose single trajectory steps from node 0 to the dead
node 1 and is classified as a dead-end. -/
def deadCfg : WalkCfg :=
  { choose := fun _ _ => 1, probMat := [[0, 1], [0, 0]],
    outInds := [], nWalks := 1, maxWalk := 0 }

/-- Walk configuration identical to `deadCfg` except that node 1 has
outgoing mass, so the same trajectory is classified as hop-budget
truncation; the row of node 1 is never sampled. -/
def cycleCfg : WalkCfg :=
  { choose := fun _ _ => 1, probMat := [[0, 1], [1, 0]],
    outInds := [], nWalks := 1, maxWalk := 0 }

/-- The adjacency matrix used to witness the `to_markov_matrix` contract:
one row with mass, one dead row. -/
def witnessAdj : List (List ℚ) :=
  [[1, 1], [0, 0]]

/-! ## Derived notions used to state the claims -/

/-- The partition invariant of spec section 3 at every internal node: the two
children own exactly the samples the fitted model's hard labels route to
them, the two subsets share no sample, and together they are the parent's
sample list exactly. -/
def partitionOk {α : Type} : ClusterTree α → Prop
  | .leaf _ _ => True
  | .node _ X p l r =>
      samplesOf l = X.filter (fun x => p x == 0) ∧
      samplesOf r = X.filter (fun x => !(p x == 0)) ∧
      (∀ x, x ∈ samplesOf l → x ∉ samplesOf r) ∧
      List.Perm (samplesOf l ++ samplesOf r) X ∧
      partitionOk l ∧ partitionOk r

/-- Name discipline of every tree built by `DivisiveCluster.fit`: a node
carries its branch path and the children extend it by their child index. -/
inductive WF {α : Type} : List Nat → ClusterTree α → Prop where
  | leaf (nm : List Nat) (s : List α) : WF nm (.leaf nm s)
  | node (nm : List Nat) (s : List α) (p : α → Nat) (l r : ClusterTree α) :
      nameOf l = nm ++ [0] → nameOf r = nm ++ [1] →
      WF (nm ++ [0]) l → WF (nm ++ [1]) r → WF nm (.node nm s p l r)

/-- Leaves of one level group, in order. -/
def leavesAt {α : Type} (d : Nat) (t : ClusterTree α) : List (ClusterTree α) :=
  (nodesAtDepth d t).filter (fun n => isLeafB n)

/-- Internal nodes of one level group, in order. -/
def internalsAt {α : Type} (d : Nat) (t : ClusterTree α) : List (ClusterTree α) :=
  (nodesAtDepth d t).filter (fun n => !(isLeafB n))

/-- Leaf names in the discovery order of `build_linkage`: bottom level
first, left to right within a level. -/
def bottomUpLeafNames {α : Type} (t : ClusterTree α) : List (List Nat) :=
  (List.range (heightOf t)).flatMap
    (fun g => (leavesAt (heightOf t - g) t).map nameOf)

/-- The merges of `build_linkage` flattened into one sequence, each sibling
pair tagged with the distance of its level. -/
def flatPairs {α : Type} (t : ClusterTree α) :
    List ((ClusterTree α × ClusterTree α) × Nat) :=
  (levelPairs t).flatMap (fun gp => gp.1.map (fun p => (p, gp.2)))

/-- State of `build_linkage` after the first `k` merges. -/
def linkStateAfter {α : Type} (t : ClusterTree α) (k : Nat) : LinkState :=
  ((flatPairs t).take k).foldl
    (fun st pd => mergePair (leafCount t) pd.2 st pd.1) initLinkState

/-- The internal nodes whose children are merged, in merge-emission order,
tagged with the distance of their merge. -/
def parentsList {α : Type} (t : ClusterTree α) : List (ClusterTree α × Nat) :=
  (List.range (heightOf t)).flatMap
    (fun g => (internalsAt (heightOf t - 1 - g) t).map (fun q => (q, g + 1)))

/-- The sibling pairs induced by a list of internal parents. -/
def pairsOfParents {α : Type} (qs : List (ClusterTree α × Nat)) :
    List ((ClusterTree α × ClusterTree α) × Nat) :=
  qs.map (fun qd => ((leftOf qd.1, rightOf qd.1), qd.2))

/-- Expected `info` association list after processing a list of parents,
numbering them from `j`: each parent's name maps to its assigned id
`num_leaves + position` and its `_n_clusters`, the number of leaves of its
subtree. -/
def mkInfo {α : Type} (L : Nat) : Nat → List (ClusterTree α × Nat) →
    List (List Nat × Nat × Nat)
  | _, [] => []
  | j, qd :: rest => (nameOf qd.1, L + j, leafCount qd.1) :: mkInfo L (j+1) rest

/-- Expected label list contributed by one merged pair: the names of its
leaf members, left first. -/
def pairLeafNames {α : Type} (pr : ClusterTree α × ClusterTree α) :
    List (List Nat) :=
  ([pr.1, pr.2].filter (fun n => isLeafB n)).map nameOf

/-- Expected label list after processing a list of parents. -/
def expLabels {α : Type} (qs : List (ClusterTree α × Nat)) : List (List Nat) :=
  qs.flatMap (fun qd => pairLeafNames (leftOf qd.1, rightOf qd.1))

/-! ## Theorems: transition-matrix construction (claim C4) -/

theorem sum_map_div (l : List ℚ) (d : ℚ) :
    (l.map (fun x => x / d)).sum = l.sum / d := by
  induction l with
  | nil => simp
  | cons x xs ih => simp [ih, add_div]

theorem markovDivisor_ne_zero (row : List ℚ) : markovDivisor row ≠ 0 := by
  unfold markovDivisor
  split_ifs with h
  · exact one_ne_zero
  · exact h

theorem markovRow_sum_one (row : List ℚ) (h : row.sum ≠ 0) :
    (markovRow row).sum = 1 := by
  unfold markovRow
  rw [sum_map_div]
  unfold markovDivisor
  rw [if_neg h, div_self h]

theorem markovRow_of_zero_sum (row : List ℚ) (h : row.sum = 0) :
    markovRow row = row := by
  unfold markovRow markovDivisor
  rw [if_pos h]
  simp

/-- C4: `to_markov_matrix(adj)` returns a matrix of the same shape in which
every row of `adj` with nonzero sum is divided by its own sum and then sums
to 1, every row summing to zero is returned unchanged and (the entries being
nonnegative) is an all-zero row, and the effective divisor is never zero;
the embedding is a pure function, reflecting that the source copies `adj`
and never modifies the input. -/
theorem C4_to_markov_matrix_normalizes (adj : List (List ℚ))
    (h : ∀ row ∈ adj, ∀ x ∈ row, 0 ≤ x) :
    (to_markov_matrix adj).length = adj.length ∧
    ∀ i, i < adj.length →
      markovDivisor (adj.getD i []) ≠ 0 ∧
      (to_markov_matrix adj).getD i [] = markovRow (adj.getD i []) ∧
      ((adj.getD i []).sum ≠ 0 → ((to_markov_matrix adj).getD i []).sum = 1) ∧
      ((adj.getD i []).sum = 0 → (to_markov_matrix adj).getD i [] = adj.getD i [] ∧
        ∀ x ∈ adj.getD i [], x = 0) := by
  constructor
  · simp [to_markov_matrix]
  · intro i hi
    have hmem : adj.getD i [] ∈ adj := by
      rw [List.getD_eq_getElem adj [] hi]
      exact List.getElem_mem hi
    have hget : (to_markov_matrix adj).getD i [] = markovRow (adj.getD i []) := by
      unfold to_markov_matrix
      rw [List.getD_eq_getElem adj [] hi,
        List.getD_eq_getElem (adj.map markovRow) [] (by simpa using hi),
        List.getElem_map]
    refine ⟨markovDivisor_ne_zero _, hget, ?_, ?_⟩
    · intro hs
      rw [hget]
      exact markovRow_sum_one _ hs
    · intro hs
      refine ⟨by rw [hget]; exact markovRow_of_zero_sum _ hs, ?_⟩
      intro x hx
      exact List.all_zero_of_le_zero_le_of_sum_eq_zero (h _ hmem) hs hx

/-- Witness for C4 at the concrete adjacency matrix `[[1,1],[0,0]]`. -/
theorem C4_witness :
    (∀ row ∈ witnessAdj, ∀ x ∈ row, 0 ≤ x) ∧
    ((to_markov_matrix witnessAdj).length = witnessAdj.length ∧
     ∀ i, i < witnessAdj.length →
       markovDivisor (witnessAdj.getD i []) ≠ 0 ∧
       (to_markov_matrix witnessAdj).getD i [] = markovRow (witnessAdj.getD i []) ∧
       ((witnessAdj.getD i []).sum ≠ 0 →
         ((to_markov_matrix witnessAdj).getD i []).sum = 1) ∧
       ((witnessAdj.getD i []).sum = 0 →
         (to_markov_matrix witnessAdj).getD i [] = witnessAdj.getD i [] ∧
         ∀ x ∈ witnessAdj.getD i [], x = 0)) :=
  ⟨by decide, C4_to_markov_matrix_normalizes witnessAdj (by decide)⟩

/-! ## Theorems: the fit partition invariant (claim C1) -/

theorem fit_samples {α : Type} (oracle : List α → ClusterModel α)
    (minSplit : Nat) (fuel : Nat) (nm : List Nat) (X : List α) :
    samplesOf (DivisiveCluster.fit oracle minSplit fuel nm X) = X := by
  cases fuel with
  | zero => rfl
  | succ f =>
    simp only [DivisiveCluster.fit]
    split_ifs <;> rfl

/-- C1: every tree produced by `DivisiveCluster.fit` satisfies the partition
invariant at every internal node: the left child's samples are exactly the
parent samples with hard label 0, the right child's exactly those with a
nonzero hard label, the two sample lists are disjoint, and their
concatenation is a permutation of the parent's sample list. -/
theorem C1_fit_partition_invariant {α : Type} (oracle : List α → ClusterModel α)
    (minSplit fuel : Nat) (nm : List Nat) (X : List α) :
    partitionOk (DivisiveCluster.fit oracle minSplit fuel nm X) := by
  induction fuel generalizing nm X with
  | zero => exact trivial
  | succ f ih =>
    simp only [DivisiveCluster.fit]
    split_ifs with h1 h2
    · refine ⟨?_, ?_, ?_, ?_, ih _ _, ih _ _⟩
      · exact fit_samples _ _ _ _ _
      · exact fit_samples _ _ _ _ _
      · intro x hl hr
        rw [fit_samples] at hl
        rw [fit_samples] at hr
        have h1 := (List.mem_filter.mp hl).2
        have h2 := (List.mem_filter.mp hr).2
        simp at h1 h2
        exact absurd h1 h2
      · rw [fit_samples, fit_samples]
        exact List.filter_append_perm _ X
    · exact trivial
    · exact trivial

/-! ## Theorems: walk-loop invariants (claims C3, C5, C8, C10) -/

theorem walkLoop_guard_false (cfg : WalkCfg) :
    ∀ fuel t curr nSteps path visits, cfg.maxWalk + 1 ≤ fuel + nSteps →
    ¬((walkLoop cfg fuel t curr nSteps path visits).last ∉ cfg.outInds ∧
      (walkLoop cfg fuel t curr nSteps path visits).steps ≤ cfg.maxWalk ∧
      (walkLoop cfg fuel t curr nSteps path visits).last ∉ cfg.deadInds) := by
  intro fuel
  induction fuel with
  | zero =>
    intro t curr nSteps path visits hb hc
    exact absurd hc.2.1 (by simpa [walkLoop] using by omega)
  | succ f ih =>
    intro t curr nSteps path visits hb
    simp only [walkLoop]
    split_ifs with hg
    · exact ih _ _ _ _ _ (by omega)
    · exact hg

theorem classify_simWalk_ne_other (cfg : WalkCfg) (s t : Nat) :
    classify cfg (simWalk cfg s t) ≠ StopReason.other := by
  have h := walkLoop_guard_false cfg (cfg.maxWalk + 2) t s 0 [s] [(s, 1)] (by omega)
  unfold classify simWalk
  split_ifs with h1 h2 h3
  · simp
  · simp
  · simp
  · exact absurd ⟨h1, by omega, h2⟩ h

theorem mem_runWalks (cfg : WalkCfg) (s : Nat) :
    ∀ n t r, r ∈ (runWalks cfg s n t).1 → ∃ t0, r = simWalk cfg s t0 := by
  intro n
  induction n with
  | zero => intro t r h; simp [runWalks] at h
  | succ k ih =>
    intro t r h
    simp only [runWalks, List.mem_cons] at h
    rcases h with h | h
    · exact ⟨t, h⟩
    · exact ih _ _ h

theorem mem_runSources (cfg : WalkCfg) :
    ∀ l t r, r ∈ runSources cfg l t → ∃ s t0, r = simWalk cfg s t0 := by
  intro l
  induction l with
  | nil => intro t r h; simp [runSources] at h
  | cons s ss ih =>
    intro t r h
    simp only [runSources, List.mem_append] at h
    rcases h with h | h
    · obtain ⟨t0, ht⟩ := mem_runWalks cfg s cfg.nWalks t r h
      exact ⟨s, t0, ht⟩
    · exact ih _ _ h

theorem countReason_cons (cfg : WalkCfg) (r : WalkRun) (rs : List WalkRun)
    (c : StopReason) :
    countReason cfg (r :: rs) c =
      (if classify cfg r = c then 1 else 0) + countReason cfg rs c := by
  by_cases h : classify cfg r = c <;>
    simp [countReason, List.filter_cons, h, Nat.add_comm]

theorem countReason_total (cfg : WalkCfg) (runs : List WalkRun) :
    countReason cfg runs .success + countReason cfg runs .deadEnd +
      countReason cfg runs .truncated + countReason cfg runs .other =
      runs.length := by
  induction runs with
  | nil => simp [countReason]
  | cons r rs ih =>
    rw [countReason_cons, countReason_cons, countReason_cons, countReason_cons,
      List.length_cons]
    cases hc : classify cfg r <;> simp [hc] <;> omega

theorem countReason_eq_zero (cfg : WalkCfg) (runs : List WalkRun) (c : StopReason)
    (h : ∀ r ∈ runs, classify cfg r ≠ c) : countReason cfg runs c = 0 := by
  induction runs with
  | nil => simp [countReason]
  | cons r rs ih =>
    rw [countReason_cons]
    rw [if_neg (h r (List.mem_cons_self r rs)), ih (fun x hx => h x (List.mem_cons_of_mem r hx))]

theorem runWalks_length (cfg : WalkCfg) (s : Nat) :
    ∀ n t, (runWalks cfg s n t).1.length = n := by
  intro n
  induction n with
  | zero => intro t; simp [runWalks]
  | succ k ih => intro t; simp [runWalks, ih]

theorem runSources_length (cfg : WalkCfg) :
    ∀ l t, (runSources cfg l t).length = l.length * cfg.nWalks := by
  intro l
  induction l with
  | nil => intro t; simp [runSources]
  | cons s ss ih =>
    intro t
    simp only [runSources, List.length_append, runWalks_length, ih, List.length_cons]
    ring

/-- C3: every trajectory of `generate_random_walks` terminates and is
classified into exactly one of the three real outcomes: the catch-all fourth
counter `stop_reasons[3]` is never incremented, and the first three counters
account for every one of the `|from_inds| * n_walks` trajectories of the
batch. -/
theorem C3_termination_trichotomy (cfg : WalkCfg) (fromInds : List Nat)
    (returnStuck : Bool) :
    (generate_random_walks cfg fromInds returnStuck).reasons.2.2.2 = 0 ∧
    (generate_random_walks cfg fromInds returnStuck).reasons.1 +
      (generate_random_walks cfg fromInds returnStuck).reasons.2.1 +
      (generate_random_walks cfg fromInds returnStuck).reasons.2.2.1 =
      fromInds.length * cfg.nWalks := by
  have hother : countReason cfg (runSources cfg fromInds 0) .other = 0 := by
    apply countReason_eq_zero
    intro r hr
    obtain ⟨s, t0, rfl⟩ := mem_runSources cfg fromInds 0 r hr
    exact classify_simWalk_ne_other cfg s t0
  have htot := countReason_total cfg (runSources cfg fromInds 0)
  have hlen := runSources_length cfg fromInds 0
  simp only [generate_random_walks]
  omega

theorem walkLoop_lens (cfg : WalkCfg) :
    ∀ fuel t curr nSteps path visits,
      visits.length = path.length → path.length = nSteps + 1 →
      (walkLoop cfg fuel t curr nSteps path visits).visits.length =
        (walkLoop cfg fuel t curr nSteps path visits).path.length ∧
      (walkLoop cfg fuel t curr nSteps path visits).path.length =
        (walkLoop cfg fuel t curr nSteps path visits).steps + 1 := by
  intro fuel
  induction fuel with
  | zero =>
    intro t curr nSteps path visits h1 h2
    exact ⟨h1, h2⟩
  | succ f ih =>
    intro t curr nSteps path visits h1 h2
    simp only [walkLoop]
    split_ifs with hg
    · exact ih _ _ _ _ _ (by simp [h1]) (by simp [h2])
    · exact ⟨h1, h2⟩

theorem walkLoop_steps_le (cfg : WalkCfg) :
    ∀ fuel t curr nSteps path visits, nSteps ≤ cfg.maxWalk + 1 →
      (walkLoop cfg fuel t curr nSteps path visits).steps ≤ cfg.maxWalk + 1 := by
  intro fuel
  induction fuel with
  | zero => intro t curr nSteps path visits h; exact h
  | succ f ih =>
    intro t curr nSteps path visits h
    simp only [walkLoop]
    split_ifs with hg
    · exact ih _ _ _ _ _ (by omega)
    · exact h

theorem simWalk_visits_length (cfg : WalkCfg) (s t : Nat) :
    (simWalk cfg s t).visits.length = (simWalk cfg s t).path.length := by
  exact (walkLoop_lens cfg (cfg.maxWalk + 2) t s 0 [s] [(s, 1)] (by simp) (by simp)).1

theorem simWalk_path_length_le (cfg : WalkCfg) (s t : Nat) :
    (simWalk cfg s t).path.length ≤ cfg.maxWalk + 2 := by
  have h1 := (walkLoop_lens cfg (cfg.maxWalk + 2) t s 0 [s] [(s, 1)] (by simp) (by simp)).2
  have h2 := walkLoop_steps_le cfg (cfg.maxWalk + 2) t s 0 [s] [(s, 1)] (by omega)
  unfold simWalk
  omega

theorem sum_le_mul_and_eq_iff (l : List Nat) (c : Nat) (h : ∀ x ∈ l, x ≤ c) :
    l.sum ≤ l.length * c ∧ (l.sum = l.length * c ↔ ∀ x ∈ l, x = c) := by
  induction l with
  | nil => simp
  | cons x xs ih =>
    have hx := h x (List.mem_cons_self x xs)
    have hxs := ih (fun y hy => h y (List.mem_cons_of_mem x hy))
    rw [List.sum_cons, List.length_cons, Nat.succ_mul]
    constructor
    · omega
    · constructor
      · intro he
        have hxc : x = c := by omega
        have hsum : xs.sum = xs.length * c := by omega
        intro y hy
        rcases List.mem_cons.mp hy with rfl | hy2
        · exact hxc
        · exact (hxs.2.mp hsum) y hy2
      · intro hall
        have hx2 : x = c := hall x (List.mem_cons_self x xs)
        have hs2 : xs.sum = xs.length * c :=
          hxs.2.mpr (fun y hy => hall y (List.mem_cons_of_mem x hy))
        omega

/-- C5 (amended): the total count of the visitation histogram of a batch is
at most `|from_inds| * n_walks * (max_walk + 2)` (each trajectory records one
visit per path position, and a full path has `max_walk + 2` positions:
the source, `max_walk` budgeted hops and the final budget-breaking hop),
with equality exactly when every trajectory runs to the full path length,
that is, when no trajectory terminates early. -/
theorem C5_amended_histogram_bound (cfg : WalkCfg) (fromInds : List Nat)
    (returnStuck : Bool) :
    (generate_random_walks cfg fromInds returnStuck).visits.length ≤
      fromInds.length * cfg.nWalks * (cfg.maxWalk + 2) ∧
    ((generate_random_walks cfg fromInds returnStuck).visits.length =
        fromInds.length * cfg.nWalks * (cfg.maxWalk + 2) ↔
      ∀ r ∈ runSources cfg fromInds 0, r.path.length = cfg.maxWalk + 2) := by
  have hlens : ∀ r ∈ runSources cfg fromInds 0,
      r.visits.length = r.path.length ∧ r.path.length ≤ cfg.maxWalk + 2 := by
    intro r hr
    obtain ⟨s, t0, rfl⟩ := mem_runSources cfg fromInds 0 r hr
    exact ⟨simWalk_visits_length cfg s t0, simWalk_path_length_le cfg s t0⟩
  have htot : (generate_random_walks cfg fromInds returnStuck).visits.length =
      ((runSources cfg fromInds 0).map (fun r => r.path.length)).sum := by
    simp only [generate_random_walks, List.length_flatMap]
    congr 1
    exact List.map_congr_left (fun r hr => (hlens r hr).1)
  have hbound := sum_le_mul_and_eq_iff
    ((runSources cfg fromInds 0).map (fun r => r.path.length)) (cfg.maxWalk + 2)
    (by
      intro x hx
      obtain ⟨r, hr, rfl⟩ := List.mem_map.mp hx
      exact (hlens r hr).2)
  have hlen : ((runSources cfg fromInds 0).map (fun r => r.path.length)).length =
      fromInds.length * cfg.nWalks := by
    rw [List.length_map]
    exact runSources_length cfg fromInds 0
  rw [htot]
  rw [hlen] at hbound
  refine ⟨hbound.1, hbound.2.trans ?_⟩
  constructor
  · intro hall r hr
    exact hall _ (List.mem_map.mpr ⟨r, hr, rfl⟩)
  · intro hall x hx
    obtain ⟨r, hr, rfl⟩ := List.mem_map.mp hx
    exact hall r hr

/-- Counterexample to C5 as stated: on the two-node cycle with one source,
one trajectory and hop budget `max_walk = 0`, the aggregated histogram holds
2 visit events, exceeding the claimed bound
`n_walks * |sources| * max_hops = 0`. -/
theorem C5_counterexample :
    (generate_random_walks hopCfg [0] false).visits.length = 2 ∧
    ¬((generate_random_walks hopCfg [0] false).visits.length ≤
        [0].length * hopCfg.nWalks * hopCfg.maxWalk) := by
  have hd : hopCfg.deadInds = [] := by
    norm_num [WalkCfg.deadInds, hopCfg, List.range_succ]
  have hout : hopCfg.outInds = [] := rfl
  have hmax : hopCfg.maxWalk = 0 := rfl
  have hn : hopCfg.nWalks = 1 := rfl
  have hch : ∀ t row, hopCfg.choose t row = 1 := fun _ _ => rfl
  have hlen : (generate_random_walks hopCfg [0] false).visits.length = 2 := by
    simp [generate_random_walks, runSources, runWalks, simWalk, walkLoop,
      hd, hout, hmax, hn, hch]
  refine ⟨hlen, ?_⟩
  rw [hlen, hmax, hn]
  omega

/-- C8 (amended): `generate_random_walks` reports the termination outcomes
as recorded counters: its four counters account for every trajectory of the
batch, none is discarded and none propagates as an exception (the embedding
is a total function). -/
theorem C8_amended_outcomes_recorded (cfg : WalkCfg) (fromInds : List Nat)
    (returnStuck : Bool) :
    (generate_random_walks cfg fromInds returnStuck).reasons.1 +
      (generate_random_walks cfg fromInds returnStuck).reasons.2.1 +
      (generate_random_walks cfg fromInds returnStuck).reasons.2.2.1 +
      (generate_random_walks cfg fromInds returnStuck).reasons.2.2.2 =
      fromInds.length * cfg.nWalks := by
  have htot := countReason_total cfg (runSources cfg fromInds 0)
  have hlen := runSources_length cfg fromInds 0
  simp only [generate_random_walks]
  omega

/-- Counterexample to C8 as stated: the fast variant reports no outcome
counts at all.  Two configurations whose single trajectory terminates for
different reasons (dead-end versus hop-budget truncation) produce identical
`generate_random_walks_fast` outputs, so no consumer of the fast variant's
output can recover the outcome counters, while `generate_random_walks`
distinguishes them. -/
theorem C8_counterexample :
    generate_random_walks_fast deadCfg [0] = generate_random_walks_fast cycleCfg [0] ∧
    (generate_random_walks deadCfg [0] false).reasons ≠
      (generate_random_walks cycleCfg [0] false).reasons := by
  have hdD : deadCfg.deadInds = [1] := by
    norm_num [WalkCfg.deadInds, deadCfg, List.range_succ]
  have hdC : cycleCfg.deadInds = [] := by
    norm_num [WalkCfg.deadInds, cycleCfg, List.range_succ]
  have houtD : deadCfg.outInds = [] := rfl
  have houtC : cycleCfg.outInds = [] := rfl
  have hmaxD : deadCfg.maxWalk = 0 := rfl
  have hmaxC : cycleCfg.maxWalk = 0 := rfl
  have hnD : deadCfg.nWalks = 1 := rfl
  have hnC : cycleCfg.nWalks = 1 := rfl
  have hchD : ∀ t row, deadCfg.choose t row = 1 := fun _ _ => rfl
  have hchC : ∀ t row, cycleCfg.choose t row = 1 := fun _ _ => rfl
  constructor
  · simp [generate_random_walks_fast, runSourcesFast, runWalksFast, simulate_walk,
      fastWalkLoop, hdD, hdC, houtD, houtC, hmaxD, hmaxC, hnD, hnC, hchD, hchC]
  · simp [generate_random_walks, runSources, runWalks, simWalk, walkLoop,
      countReason, classify, hdD, hdC, houtD, houtC, hmaxD, hmaxC, hnD, hnC,
      hchD, hchC]

theorem fastWalkLoop_eq_walkLoop (cfg : WalkCfg) :
    ∀ fuel t curr nSteps path visits,
      fastWalkLoop cfg fuel t curr nSteps path visits =
        walkLoop cfg fuel t curr nSteps path visits := by
  intro fuel
  induction fuel with
  | zero => intro t curr nSteps path visits; rfl
  | succ f ih =>
    intro t curr nSteps path visits
    simp only [fastWalkLoop, walkLoop]
    split_ifs with h
    · exact ih _ _ _ _ _
    · rfl

theorem simulate_walk_eval (cfg : WalkCfg) (s t : Nat) :
    simulate_walk cfg s t =
      (if (simWalk cfg s t).last ∈ cfg.outInds then some (simWalk cfg s t).path else none,
       (simWalk cfg s t).visits, (simWalk cfg s t).counter) := by
  unfold simulate_walk simWalk
  rw [fastWalkLoop_eq_walkLoop]

theorem runWalksFast_eq (cfg : WalkCfg) (s : Nat) :
    ∀ n t,
      (runWalksFast cfg s n t).1 = (runWalks cfg s n t).1.map (fun r =>
        (if r.last ∈ cfg.outInds then some r.path else none, r.visits)) ∧
      (runWalksFast cfg s n t).2 = (runWalks cfg s n t).2 := by
  intro n
  induction n with
  | zero => intro t; exact ⟨rfl, rfl⟩
  | succ k ih =>
    intro t
    constructor
    · simp only [runWalksFast, runWalks, simulate_walk_eval, List.map_cons]
      rw [(ih _).1]
    · simp only [runWalksFast, runWalks, simulate_walk_eval]
      exact (ih _).2

theorem runSourcesFast_eq (cfg : WalkCfg) :
    ∀ l t,
      runSourcesFast cfg l t = (runSources cfg l t).map (fun r =>
        (if r.last ∈ cfg.outInds then some r.path else none, r.visits)) := by
  intro l
  induction l with
  | nil => intro t; rfl
  | cons s ss ih =>
    intro t
    simp only [runSourcesFast, runSources, List.map_append]
    rw [(runWalksFast_eq cfg s cfg.nWalks t).1, (runWalksFast_eq cfg s cfg.nWalks t).2, ih]

theorem filterMap_ext {α β : Type} (l : List α) (f g : α → Option β)
    (h : ∀ a ∈ l, f a = g a) : l.filterMap f = l.filterMap g := by
  induction l with
  | nil => rfl
  | cons x xs ih =>
    rw [List.filterMap_cons, List.filterMap_cons, h x (List.mem_cons_self x xs),
      ih (fun a ha => h a (List.mem_cons_of_mem x ha))]

theorem flatMap_of_map {α β γ : Type} (l : List α) (f : α → β) (g : β → List γ) :
    (l.map f).flatMap g = l.flatMap (fun a => g (f a)) := by
  induction l with
  | nil => rfl
  | cons x xs ih => simp [ih]

/-- C10: run from the same random-generator state (the same sampling
oracle), `generate_random_walks` with `return_stuck=False` and
`generate_random_walks_fast` return the same collection of successful paths,
the same flattened visit events, and the same per-node visit-order
records. -/
theorem C10_fast_matches_slow (cfg : WalkCfg) (fromInds : List Nat) :
    (generate_random_walks_fast cfg fromInds).smPaths =
      (generate_random_walks cfg fromInds false).smPaths ∧
    (generate_random_walks_fast cfg fromInds).visits =
      (generate_random_walks cfg fromInds false).visits ∧
    (∀ v, visitOrder (generate_random_walks_fast cfg fromInds).visits v =
      visitOrder (generate_random_walks cfg fromInds false).visits v) := by
  have hvisits : (generate_random_walks_fast cfg fromInds).visits =
      (generate_random_walks cfg fromInds false).visits := by
    simp only [generate_random_walks_fast, generate_random_walks,
      runSourcesFast_eq, flatMap_of_map]
  refine ⟨?_, hvisits, fun v => by rw [hvisits]⟩
  simp only [generate_random_walks_fast, generate_random_walks,
    runSourcesFast_eq, List.filterMap_map]
  apply filterMap_ext
  intro r hr
  simp only [Function.comp]
  by_cases h1 : r.last ∈ cfg.outInds
  · simp [classify, h1]
  · by_cases h2 : r.last ∈ cfg.deadInds
    · simp [classify, h1, h2]
    · by_cases h3 : r.steps > cfg.maxWalk
      · simp [classify, h1, h2, h3]
      · simp [classify, h1, h2, h3]

/-! ## Theorems: the no-revisit invariant of the spec-modelled RandomWalk
(claim C6) -/

theorem rwSupport_not_visited (row : List ℚ) (visited : List Nat) (i : Nat)
    (h : i ∈ rwSupport row visited false) : i ∉ visited := by
  simp only [rwSupport, Bool.if_false_left, Bool.false_eq_true, if_false,
    List.mem_filter, Bool.and_eq_true, decide_eq_true_eq] at h
  exact h.2.1

theorem rwWalk_nodup (sigma : Nat → Nat) (probMat : List (List ℚ))
    (stopNodes : List Nat) :
    ∀ fuel curr path, path.Nodup →
      (rwWalk sigma probMat stopNodes false fuel curr path).Nodup := by
  intro fuel
  induction fuel with
  | zero => intro curr path h; exact h
  | succ f ih =>
    intro curr path h
    simp only [rwWalk]
    split_ifs with hs
    · exact h
    · rcases hg : (rwSupport (probMat.getD curr []) path false).get?
        (sigma path.length % (rwSupport (probMat.getD curr []) path false).length)
        with _ | next
      · exact h
      · apply ih
        have hnext : next ∈ rwSupport (probMat.getD curr []) path false :=
          List.get?_mem hg
        have hnotin : next ∉ path := rwSupport_not_visited _ _ _ hnext
        exact List.Nodup.append h (List.nodup_singleton next)
          (by simpa [List.disjoint_left] using hnotin)

/-- C6 (spec-modelled): the `RandomWalk` traversal engine of spec 4.2 is not
present under `src/` (only its notebook callers are); modelled from the
spec's words, a walk run with `allow_loops=False` never revisits a node:
every generated path is duplicate-free, so `len(path) == len(set(path))`. -/
theorem C6_no_revisit (sigma : Nat → Nat) (probMat : List (List ℚ))
    (stopNodes : List Nat) (maxHops source : Nat) :
    (rwStart sigma probMat stopNodes false maxHops source).Nodup ∧
    (rwStart sigma probMat stopNodes false maxHops source).dedup.length =
      (rwStart sigma probMat stopNodes false maxHops source).length := by
  have h : (rwStart sigma probMat stopNodes false maxHops source).Nodup :=
    rwWalk_nodup sigma probMat stopNodes maxHops source [source] (by simp)
  exact ⟨h, by rw [List.dedup_eq_self.mpr h]⟩

/-! ## Theorems: predict routing (claim C7) -/

theorem scatter_filter {α β : Type} (pr : α → Bool) (f g : α → β) :
    ∀ X : List α,
      scatter pr X ((X.filter pr).map f) ((X.filter (fun x => !pr x)).map g) =
        X.map (fun x => if pr x then f x else g x) := by
  intro X
  induction X with
  | nil => rfl
  | cons x xs ih =>
    cases hx : pr x <;> simp [scatter, List.filter_cons, hx, ih]

/-- C7 (amended): `DivisiveCluster.predict` returns, for every point, the
full branch path of the leaf the point is routed to, whatever the depths of
the leaves (no truncation is possible for branch-path labels); it calls no
model at a leaf, but an internal node invokes its fitted model's predict on
whatever subset reaches it, whose size heads the call trace: in particular
an empty subset routed toward an internal subtree still triggers a
zero-input model call. -/
theorem C7_amended_predict {α : Type} (t : ClusterTree α) (X : List α) :
    (DivisiveCluster.predict t X).1 = X.map (routeLabel t) ∧
    (DivisiveCluster.predict t X).2.head? =
      (if isLeafB t then none else some X.length) := by
  constructor
  · induction t generalizing X with
    | leaf nm s => simp [DivisiveCluster.predict, routeLabel]
    | node nm s p l r ihl ihr =>
      simp only [DivisiveCluster.predict]
      rw [ihl, ihr, scatter_filter]
      rfl
  · cases t with
    | leaf nm s => rfl
    | node nm s p l r => rfl

/-- Counterexample to C7 as stated: on the fitted uneven-depth tree, the
input `[9]` is routed entirely to the right subtree, so the internal left
child receives the empty subset; `predict` nevertheless invokes that child's
fitted model, and the call trace records a zero-input model call. -/
theorem C7_counterexample :
    isLeafB (leftOf unevenTree) = false ∧
    0 ∈ (DivisiveCluster.predict unevenTree [9]).2 := by decide

/-! ## Theorems: the two-blob scenario (claim C9) -/

/-- Counterexample to C9 as stated: the two-blob linkage row carries
`member_count = 2` (its two leaf clusters; leaves count as 1), not 100. -/
theorem C9_counterexample :
    (DivisiveCluster.build_linkage blobTree).1 = [⟨0, 1, 1, 2⟩] ∧
    ((DivisiveCluster.build_linkage blobTree).1.getD 0 ⟨0, 0, 0, 0⟩).nClusters ≠ 100 := by
  decide

/-- C9 (amended): fitting the two well-separated 50-point blobs with
`min_split_samples = 5` yields a tree of depth 1 (one split, two leaves),
and `build_linkage` yields exactly one row, at distance 1, whose
`member_count` is 2, the sum of its children's member counts with leaves
counting as 1. -/
theorem C9_amended_two_blob :
    heightOf blobTree = 1 ∧ leafCount blobTree = 2 ∧ isLeafB blobTree = false ∧
    DivisiveCluster.build_linkage blobTree = ([⟨0, 1, 1, 2⟩], [[0], [1]]) := by
  decide

/-! ## Theorems: linkage well-formedness (claim C2) -/

theorem flatMap_ext {α β : Type} (l : List α) (f g : α → List β)
    (h : ∀ a ∈ l, f a = g a) : l.flatMap f = l.flatMap g :=
  List.flatMap_congr h

theorem filter_flatMap {α β : Type} (l : List α) (f : α → List β) (p : β → Bool) :
    (l.flatMap f).filter p = l.flatMap (fun x => (f x).filter p) := by
  induction l with
  | nil => rfl
  | cons x xs ih => simp [ih, List.filter_append]

theorem childrenOf_internal {α : Type} (n : ClusterTree α) (h : isLeafB n = false) :
    childrenOf n = [leftOf n, rightOf n] := by
  cases n with
  | leaf nm s => exact absurd h (by simp [isLeafB])
  | node nm s p l r => rfl

theorem leafCount_of_leaf {α : Type} (n : ClusterTree α) (h : isLeafB n = true) :
    leafCount n = 1 := by
  cases n with
  | leaf nm s => rfl
  | node nm s p l r => exact absurd h (by simp [isLeafB])

theorem leafCount_internal {α : Type} (q : ClusterTree α) (h : isLeafB q = false) :
    leafCount q = leafCount (leftOf q) + leafCount (rightOf q) := by
  cases q with
  | leaf nm s => exact absurd h (by simp [isLeafB])
  | node nm s p l r => rfl

theorem nodesAtDepth_succ {α : Type} :
    ∀ (d : Nat) (t : ClusterTree α),
      nodesAtDepth (d+1) t = (internalsAt d t).flatMap childrenOf := by
  intro d
  induction d with
  | zero =>
    intro t
    cases t with
    | leaf nm s => rfl
    | node nm s p l r => rfl
  | succ k ih =>
    intro t
    cases t with
    | leaf nm s => rfl
    | node nm s p l r =>
      show nodesAtDepth (k+1) l ++ nodesAtDepth (k+1) r = _
      rw [ih l, ih r]
      have : internalsAt (k+1) (ClusterTree.node nm s p l r) =
          internalsAt k l ++ internalsAt k r := by
        simp [internalsAt, nodesAtDepth, List.filter_append]
      rw [this, List.flatMap_append]

theorem nodesAtDepth_nil_of_lt {α : Type} :
    ∀ (d : Nat) (t : ClusterTree α), heightOf t < d → nodesAtDepth d t = [] := by
  intro d
  induction d with
  | zero => intro t h; omega
  | succ k ih =>
    intro t h
    cases t with
    | leaf nm s => rfl
    | node nm s p l r =>
      show nodesAtDepth k l ++ nodesAtDepth k r = []
      have hh : heightOf (ClusterTree.node nm s p l r) = max (heightOf l) (heightOf r) + 1 := rfl
      rw [ih l (by omega), ih r (by omega)]
      rfl

theorem mem_nodesAtDepth_height {α : Type} :
    ∀ (d : Nat) (t x : ClusterTree α), x ∈ nodesAtDepth d t →
      heightOf x + d ≤ heightOf t := by
  intro d
  induction d with
  | zero =>
    intro t x h
    have hx : x = t := by simpa [nodesAtDepth] using h
    subst hx
    omega
  | succ k ih =>
    intro t x h
    cases t with
    | leaf nm s => simp [nodesAtDepth] at h
    | node nm s p l r =>
      have hh : heightOf (ClusterTree.node nm s p l r) = max (heightOf l) (heightOf r) + 1 := rfl
      rcases List.mem_append.mp h with h2 | h2
      · have := ih l x h2
        omega
      · have := ih r x h2
        omega

theorem isLeafB_of_height_zero {α : Type} (x : ClusterTree α)
    (h : heightOf x = 0) : isLeafB x = true := by
  cases x with
  | leaf nm s => rfl
  | node nm s p l r => simp [heightOf] at h

theorem mem_nodesAtDepth_top_isLeaf {α : Type} (t x : ClusterTree α)
    (h : x ∈ nodesAtDepth (heightOf t) t) : isLeafB x = true := by
  have := mem_nodesAtDepth_height (heightOf t) t x h
  exact isLeafB_of_height_zero x (by omega)

theorem internalsAt_nil_of_le {α : Type} (d : Nat) (t : ClusterTree α)
    (h : heightOf t ≤ d) : internalsAt d t = [] := by
  rcases Nat.lt_or_ge (heightOf t) d with hlt | hge
  · simp [internalsAt, nodesAtDepth_nil_of_lt d t hlt]
  · have hd : d = heightOf t := by omega
    subst hd
    rw [internalsAt, List.filter_eq_nil_iff]
    intro x hx
    simp [mem_nodesAtDepth_top_isLeaf t x hx]

theorem leavesAt_nil_of_lt {α : Type} (d : Nat) (t : ClusterTree α)
    (h : heightOf t < d) : leavesAt d t = [] := by
  simp [leavesAt, nodesAtDepth_nil_of_lt d t h]

theorem mem_internalsAt_isLeafB {α : Type} (d : Nat) (t x : ClusterTree α)
    (h : x ∈ internalsAt d t) : isLeafB x = false := by
  have h2 := (List.mem_filter.mp h).2
  simpa using h2

theorem pairUp_flatMap {β γ : Type} (a b : γ → β) :
    ∀ (l : List γ) (f : γ → List β), (∀ x ∈ l, f x = [a x, b x]) →
      pairUp (l.flatMap f) = l.map (fun x => (a x, b x)) := by
  intro l
  induction l with
  | nil => intro f h; rfl
  | cons x xs ih =>
    intro f h
    rw [List.flatMap_cons, h x (List.mem_cons_self x xs)]
    show pairUp (a x :: b x :: xs.flatMap f) = _
    rw [List.map_cons]
    show (a x, b x) :: pairUp (xs.flatMap f) = _
    rw [ih f (fun y hy => h y (List.mem_cons_of_mem x hy))]

theorem pairUp_level {α : Type} (t : ClusterTree α) (d : Nat) :
    pairUp (nodesAtDepth (d+1) t) =
      (internalsAt d t).map (fun q => (leftOf q, rightOf q)) := by
  rw [nodesAtDepth_succ]
  exact pairUp_flatMap leftOf rightOf (internalsAt d t) childrenOf
    (fun q hq => childrenOf_internal q (mem_internalsAt_isLeafB d t q hq))

theorem group_leaf_names {α : Type} (t : ClusterTree α) (d : Nat) :
    (internalsAt d t).flatMap (fun q => pairLeafNames (leftOf q, rightOf q)) =
      (leavesAt (d+1) t).map nameOf := by
  rw [leavesAt, nodesAtDepth_succ, filter_flatMap, List.map_flatMap]
  apply flatMap_ext
  intro q hq
  rw [childrenOf_internal q (mem_internalsAt_isLeafB d t q hq)]
  rfl

theorem fit_name {α : Type} (oracle : List α → ClusterModel α) (minSplit : Nat) :
    ∀ (fuel : Nat) (nm : List Nat) (X : List α),
      nameOf (DivisiveCluster.fit oracle minSplit fuel nm X) = nm := by
  intro fuel nm X
  cases fuel with
  | zero => rfl
  | succ f =>
    simp only [DivisiveCluster.fit]
    split_ifs <;> rfl

theorem WF_fit {α : Type} (oracle : List α → ClusterModel α) (minSplit : Nat) :
    ∀ (fuel : Nat) (nm : List Nat) (X : List α),
      WF nm (DivisiveCluster.fit oracle minSplit fuel nm X) := by
  intro fuel
  induction fuel with
  | zero => intro nm X; exact WF.leaf nm X
  | succ f ih =>
    intro nm X
    simp only [DivisiveCluster.fit]
    split_ifs with h1 h2
    · exact WF.node nm X _ _ _ (fit_name oracle minSplit f _ _)
        (fit_name oracle minSplit f _ _) (ih _ _) (ih _ _)
    · exact WF.leaf nm X
    · exact WF.leaf nm X

theorem WF_nameOf {α : Type} {nm : List Nat} {t : ClusterTree α} (h : WF nm t) :
    nameOf t = nm := by
  cases h with
  | leaf nm s => rfl
  | node nm s p l r h1 h2 h3 h4 => rfl

theorem WF_mem_nodesAtDepth {α : Type} :
    ∀ (d : Nat) (nm : List Nat) (t x : ClusterTree α), WF nm t →
      x ∈ nodesAtDepth d t → ∃ nm2, WF nm2 x := by
  intro d
  induction d with
  | zero =>
    intro nm t x hwf hx
    have : x = t := by simpa [nodesAtDepth] using hx
    subst this
    exact ⟨nm, hwf⟩
  | succ k ih =>
    intro nm t x hwf hx
    cases hwf with
    | leaf nm s => simp [nodesAtDepth] at hx
    | node nm s p l r h1 h2 h3 h4 =>
      rcases List.mem_append.mp hx with h5 | h5
      · exact ih _ l x h3 h5
      · exact ih _ r x h4 h5

theorem WF_children_names {α : Type} {nm : List Nat} {q : ClusterTree α}
    (h : WF nm q) (hq : isLeafB q = false) :
    nameOf (leftOf q) = nameOf q ++ [0] ∧ nameOf (rightOf q) = nameOf q ++ [1] := by
  cases h with
  | leaf nm s => exact absurd hq (by simp [isLeafB])
  | node nm s p l r h1 h2 h3 h4 => exact ⟨h1, h2⟩

theorem WF_names_at_depth {α : Type} :
    ∀ (d : Nat) (nm : List Nat) (t x : ClusterTree α), WF nm t →
      x ∈ nodesAtDepth d t → ∃ p, nameOf x = nm ++ p ∧ p.length = d := by
  intro d
  induction d with
  | zero =>
    intro nm t x hwf hx
    have : x = t := by simpa [nodesAtDepth] using hx
    subst this
    exact ⟨[], by simp [WF_nameOf hwf]⟩
  | succ k ih =>
    intro nm t x hwf hx
    cases hwf with
    | leaf nm s => simp [nodesAtDepth] at hx
    | node nm s p l r h1 h2 h3 h4 =>
      rcases List.mem_append.mp hx with h5 | h5
      · obtain ⟨p2, hp1, hp2⟩ := ih _ l x h3 h5
        exact ⟨0 :: p2, by simp [hp1], by simp [hp2]⟩
      · obtain ⟨p2, hp1, hp2⟩ := ih _ r x h4 h5
        exact ⟨1 :: p2, by simp [hp1], by simp [hp2]⟩

theorem WF_nodup_names_at_depth {α : Type} :
    ∀ (d : Nat) (nm : List Nat) (t : ClusterTree α), WF nm t →
      ((nodesAtDepth d t).map nameOf).Nodup := by
  intro d
  induction d with
  | zero => intro nm t hwf; simp [nodesAtDepth]
  | succ k ih =>
    intro nm t hwf
    cases hwf with
    | leaf nm s => simp [nodesAtDepth]
    | node nm s p l r h1 h2 h3 h4 =>
      show ((nodesAtDepth k l ++ nodesAtDepth k r).map nameOf).Nodup
      rw [List.map_append, List.nodup_append]
      refine ⟨ih _ l h3, ih _ r h4, ?_⟩
      intro a ha hb
      obtain ⟨x, hx, rfl⟩ := List.mem_map.mp ha
      obtain ⟨y, hy, hxy⟩ := List.mem_map.mp hb
      obtain ⟨p1, hp1, hl1⟩ := WF_names_at_depth k _ l x h3 hx
      obtain ⟨p2, hp2, hl2⟩ := WF_names_at_depth k _ r y h4 hy
      rw [hp1] at hxy
      rw [hp2] at hxy
      have : nm ++ (0 :: p1) = nm ++ (1 :: p2) := by
        simpa [List.append_assoc] using hxy.symm
      have h10 : (0 : Nat) :: p1 = 1 :: p2 := List.append_cancel_left this
      simp at h10

theorem internalsAt_zero_node {α : Type} (nm : List Nat) (s : List α)
    (p : α → Nat) (l r : ClusterTree α) :
    internalsAt 0 (ClusterTree.node nm s p l r) = [ClusterTree.node nm s p l r] := by
  simp [internalsAt, nodesAtDepth, isLeafB]

theorem internalsAt_succ_node {α : Type} (d : Nat) (nm : List Nat) (s : List α)
    (p : α → Nat) (l r : ClusterTree α) :
    internalsAt (d+1) (ClusterTree.node nm s p l r) =
      internalsAt d l ++ internalsAt d r := by
  simp [internalsAt, nodesAtDepth, List.filter_append]

theorem leavesAt_zero_internal {α : Type} (t : ClusterTree α)
    (h : isLeafB t = false) : leavesAt 0 t = [] := by
  simp [leavesAt, nodesAtDepth, h]

theorem leavesAt_succ_node {α : Type} (d : Nat) (nm : List Nat) (s : List α)
    (p : α → Nat) (l r : ClusterTree α) :
    leavesAt (d+1) (ClusterTree.node nm s p l r) = leavesAt d l ++ leavesAt d r := by
  simp [leavesAt, nodesAtDepth, List.filter_append]

theorem sum_map_add (f g : Nat → Nat) :
    ∀ l : List Nat, (l.map (fun d => f d + g d)).sum = (l.map f).sum + (l.map g).sum := by
  intro l
  induction l with
  | nil => rfl
  | cons x xs ih => simp [ih]; omega

theorem sum_range_zero_tail (f : Nat → Nat) :
    ∀ n m, m ≤ n → (∀ d, m ≤ d → f d = 0) →
      ((List.range n).map f).sum = ((List.range m).map f).sum := by
  intro n
  induction n with
  | zero =>
    intro m h _
    have : m = 0 := by omega
    subst this
    rfl
  | succ k ih =>
    intro m h h0
    by_cases hm : m = k + 1
    · subst hm; rfl
    · rw [List.range_succ, List.map_append, List.sum_append]
      simp [h0 k (by omega)]
      exact ih m (by omega) h0

theorem sum_internalsAt {α : Type} (t : ClusterTree α) :
    ((List.range (heightOf t)).map (fun d => (internalsAt d t).length)).sum =
      internalCount t := by
  induction t with
  | leaf nm s => rfl
  | node nm s p l r ihl ihr =>
    have hh : heightOf (ClusterTree.node nm s p l r) = max (heightOf l) (heightOf r) + 1 := rfl
    rw [hh, List.range_succ_eq_map, List.map_cons, List.sum_cons, List.map_map]
    have h0 : (internalsAt 0 (ClusterTree.node nm s p l r)).length = 1 := by
      rw [internalsAt_zero_node]; rfl
    have hsucc : ((List.range (max (heightOf l) (heightOf r))).map
        ((fun d => (internalsAt d (ClusterTree.node nm s p l r)).length) ∘ Nat.succ)).sum =
        ((List.range (max (heightOf l) (heightOf r))).map
          (fun d => (internalsAt d l).length + (internalsAt d r).length)).sum := by
      apply congrArg
      apply List.map_congr_left
      intro d _
      simp [Function.comp, internalsAt_succ_node]
    rw [h0, hsucc, sum_map_add]
    have hl2 : ((List.range (max (heightOf l) (heightOf r))).map
        (fun d => (internalsAt d l).length)).sum = internalCount l := by
      rw [sum_range_zero_tail _ _ (heightOf l) (by omega)
        (fun d hd => by rw [internalsAt_nil_of_le d l hd]; rfl)]
      exact ihl
    have hr2 : ((List.range (max (heightOf l) (heightOf r))).map
        (fun d => (internalsAt d r).length)).sum = internalCount r := by
      rw [sum_range_zero_tail _ _ (heightOf r) (by omega)
        (fun d hd => by rw [internalsAt_nil_of_le d r hd]; rfl)]
      exact ihr
    rw [hl2, hr2]
    show 1 + (internalCount l + internalCount r) = internalCount l + internalCount r + 1
    omega

theorem sum_leavesAt {α : Type} (t : ClusterTree α) :
    ((List.range (heightOf t + 1)).map (fun d => (leavesAt d t).length)).sum =
      leafCount t := by
  induction t with
  | leaf nm s => rfl
  | node nm s p l r ihl ihr =>
    have hh : heightOf (ClusterTree.node nm s p l r) = max (heightOf l) (heightOf r) + 1 := rfl
    rw [hh, List.range_succ_eq_map, List.map_cons, List.sum_cons, List.map_map]
    have h0 : (leavesAt 0 (ClusterTree.node nm s p l r)).length = 0 := by
      rw [leavesAt_zero_internal _ (by rfl)]; rfl
    have hsucc : ((List.range (max (heightOf l) (heightOf r) + 1)).map
        ((fun d => (leavesAt d (ClusterTree.node nm s p l r)).length) ∘ Nat.succ)).sum =
        ((List.range (max (heightOf l) (heightOf r) + 1)).map
          (fun d => (leavesAt d l).length + (leavesAt d r).length)).sum := by
      apply congrArg
      apply List.map_congr_left
      intro d _
      simp [Function.comp, leavesAt_succ_node]
    rw [h0, hsucc, sum_map_add]
    have hl2 : ((List.range (max (heightOf l) (heightOf r) + 1)).map
        (fun d => (leavesAt d l).length)).sum = leafCount l := by
      rw [sum_range_zero_tail _ _ (heightOf l + 1) (by omega)
        (fun d hd => by rw [leavesAt_nil_of_lt d l (by omega)]; rfl)]
      exact ihl
    have hr2 : ((List.range (max (heightOf l) (heightOf r) + 1)).map
        (fun d => (leavesAt d r).length)).sum = leafCount r := by
      rw [sum_range_zero_tail _ _ (heightOf r + 1) (by omega)
        (fun d hd => by rw [leavesAt_nil_of_lt d r (by omega)]; rfl)]
      exact ihr
    rw [hl2, hr2]
    show 0 + (leafCount l + leafCount r) = leafCount l + leafCount r
    omega

theorem sum_map_range_reflect (f : Nat → Nat) (n : Nat) :
    ((List.range n).map (fun g => f (n - 1 - g))).sum = ((List.range n).map f).sum := by
  have h1 : (List.range n).map (fun g => n - 1 - g) = (List.range n).reverse := by
    rw [List.range_eq_range', List.reverse_range', ← List.range_eq_range']
    simp
  have h2 : (List.range n).map (fun g => f (n - 1 - g)) =
      ((List.range n).map (fun g => n - 1 - g)).map f := by
    rw [List.map_map]
    rfl
  rw [h2, h1, List.map_reverse, List.sum_reverse]

theorem names_depth_disjoint {α : Type} (nm : List Nat) (t : ClusterTree α)
    (hwf : WF nm t) (d1 d2 : Nat) (hne : d1 ≠ d2) :
    List.Disjoint ((internalsAt d1 t).map nameOf) ((internalsAt d2 t).map nameOf) := by
  intro a ha hb
  obtain ⟨x, hx, rfl⟩ := List.mem_map.mp ha
  obtain ⟨y, hy, hxy⟩ := List.mem_map.mp hb
  have hx2 : x ∈ nodesAtDepth d1 t := List.mem_of_mem_filter hx
  have hy2 : y ∈ nodesAtDepth d2 t := List.mem_of_mem_filter hy
  obtain ⟨p1, hp1, hl1⟩ := WF_names_at_depth d1 nm t x hwf hx2
  obtain ⟨p2, hp2, hl2⟩ := WF_names_at_depth d2 nm t y hwf hy2
  have : (nameOf x).length = (nameOf y).length := by rw [hxy]
  rw [hp1, hp2] at this
  simp [hl1, hl2] at this
  exact hne this

theorem groups_names_nodup {α : Type} (nm : List Nat) (t : ClusterTree α)
    (hwf : WF nm t) (k : Nat) (hk : k ≤ heightOf t) :
    (((List.range k).flatMap (fun g =>
        (internalsAt (heightOf t - 1 - g) t).map (fun q => (q, g + 1)))).map
      (fun qd => nameOf qd.1)).Nodup := by
  rw [List.map_flatMap]
  have heq : ∀ g ∈ List.range k,
      (((internalsAt (heightOf t - 1 - g) t).map (fun q => (q, g + 1))).map
        (fun qd => nameOf qd.1)) = (internalsAt (heightOf t - 1 - g) t).map nameOf := by
    intro g _
    rw [List.map_map]
    rfl
  rw [flatMap_ext _ _ _ heq]
  rw [List.nodup_flatMap]
  constructor
  · intro g _
    exact List.Nodup.sublist (List.Sublist.map nameOf (List.filter_sublist _))
      (WF_nodup_names_at_depth (heightOf t - 1 - g) nm t hwf)
  · apply List.Pairwise.imp_of_mem ?_ (List.pairwise_lt_range k)
    intro g1 g2 h1 h2 hlt
    have hg1 : g1 < k := List.mem_range.mp h1
    have hg2 : g2 < k := List.mem_range.mp h2
    exact names_depth_disjoint nm t hwf _ _ (by omega)

theorem expLabels_groups {α : Type} (t : ClusterTree α) (k : Nat)
    (hk : k ≤ heightOf t) :
    expLabels ((List.range k).flatMap (fun g =>
        (internalsAt (heightOf t - 1 - g) t).map (fun q => (q, g + 1)))) =
      (List.range k).flatMap (fun g => (leavesAt (heightOf t - g) t).map nameOf) := by
  unfold expLabels
  rw [List.flatMap_assoc]
  apply flatMap_ext
  intro g hg
  rw [flatMap_of_map]
  have hg2 : heightOf t - 1 - g + 1 = heightOf t - g := by
    have := List.mem_range.mp hg
    omega
  rw [← hg2, ← group_leaf_names t (heightOf t - 1 - g)]

theorem bottomUpLeafNames_length {α : Type} (t : ClusterTree α)
    (hroot : isLeafB t = false) :
    (bottomUpLeafNames t).length = leafCount t := by
  have hlen : (bottomUpLeafNames t).length =
      ((List.range (heightOf t)).map
        (fun g => (leavesAt (heightOf t - g) t).length)).sum := by
    unfold bottomUpLeafNames
    rw [List.length_flatMap]
    apply congrArg
    apply List.map_congr_left
    intro g _
    simp
  have hext : ((List.range (heightOf t + 1)).map
      (fun g => (leavesAt (heightOf t - g) t).length)).sum =
      ((List.range (heightOf t)).map
        (fun g => (leavesAt (heightOf t - g) t).length)).sum := by
    rw [List.range_succ, List.map_append, List.sum_append]
    simp [Nat.sub_self, leavesAt_zero_internal t hroot]
  have hrefl : ((List.range (heightOf t + 1)).map
      (fun g => (leavesAt (heightOf t - g) t).length)).sum =
      ((List.range (heightOf t + 1)).map
        (fun d => (leavesAt d t).length)).sum := by
    have : ∀ g ∈ List.range (heightOf t + 1),
        (leavesAt (heightOf t - g) t).length =
          (leavesAt (heightOf t + 1 - 1 - g) t).length := by
      intro g _
      simp
    rw [List.map_congr_left this]
    exact sum_map_range_reflect (fun d => (leavesAt d t).length) (heightOf t + 1)
  rw [hlen, ← hext, hrefl, sum_leavesAt]

theorem groups_labels_le {α : Type} (t : ClusterTree α) (hroot : isLeafB t = false)
    (k : Nat) (hk : k ≤ heightOf t) :
    ((List.range k).flatMap
      (fun g => (leavesAt (heightOf t - g) t).map nameOf)).length ≤ leafCount t := by
  have hfull : ((List.range (heightOf t)).flatMap
      (fun g => (leavesAt (heightOf t - g) t).map nameOf)).length = leafCount t :=
    bottomUpLeafNames_length t hroot
  have hsplit : List.range (heightOf t) =
      List.range k ++ (List.range (heightOf t - k)).map (k + ·) := by
    have : heightOf t = k + (heightOf t - k) := by omega
    rw [this, List.range_add]
    simp
  rw [hsplit, List.flatMap_append, List.length_append] at hfull
  omega

theorem mkInfo_length {α : Type} (L : Nat) (ps : List (ClusterTree α × Nat)) :
    ∀ base, (mkInfo L base ps).length = ps.length := by
  induction ps with
  | nil => intro base; rfl
  | cons qd rest ih => intro base; simp [mkInfo, ih]

theorem mkInfo_append {α : Type} (L : Nat) (ps qs : List (ClusterTree α × Nat)) :
    ∀ base, mkInfo L base (ps ++ qs) =
      mkInfo L base ps ++ mkInfo L (base + ps.length) qs := by
  induction ps with
  | nil => intro base; simp [mkInfo]
  | cons qd rest ih =>
    intro base
    show (nameOf qd.1, L + base, leafCount qd.1) :: mkInfo L (base+1) (rest ++ qs) = _
    rw [ih (base + 1)]
    have hidx : base + 1 + rest.length = base + (rest.length + 1) := by omega
    rw [hidx]
    rfl

theorem mkInfo_get_ind {α : Type} (L : Nat) (ps : List (ClusterTree α × Nat)) :
    ∀ (base j : Nat) (hj : j < (mkInfo L base ps).length),
      ((mkInfo L base ps).get ⟨j, hj⟩).2.1 = L + base + j := by
  induction ps with
  | nil => intro base j hj; simp [mkInfo] at hj
  | cons qd rest ih =>
    intro base j hj
    cases j with
    | zero => rfl
    | succ k =>
      have hk : k < (mkInfo L (base + 1) rest).length := by
        simpa [mkInfo] using hj
      have := ih (base + 1) k hk
      show ((mkInfo L (base+1) rest).get ⟨k, hk⟩).2.1 = _
      omega

theorem lookupInfo_mkInfo {α : Type} (L : Nat) (ps : List (ClusterTree α × Nat)) :
    ∀ (base : Nat) (c : ClusterTree α),
      (ps.map (fun qd => nameOf qd.1)).Nodup →
      c ∈ ps.map (fun qd => qd.1) →
      ∃ j, j < ps.length ∧
        lookupInfo (mkInfo L base ps) (nameOf c) = (L + base + j, leafCount c) := by
  induction ps with
  | nil => intro base c _ hc; simp at hc
  | cons qd rest ih =>
    intro base c hnodup hc
    rw [List.map_cons] at hc
    rw [List.map_cons, List.nodup_cons] at hnodup
    rcases List.mem_cons.mp hc with heq | hmem
    · refine ⟨0, by simp, ?_⟩
      subst heq
      simp [mkInfo, lookupInfo]
    · have hcn : nameOf c ∈ rest.map (fun qd => nameOf qd.1) := by
        obtain ⟨e, he, hce⟩ := List.mem_map.mp hmem
        exact List.mem_map.mpr ⟨e, he, by rw [hce]⟩
      have hne : ¬ (nameOf qd.1 = nameOf c) := by
        intro h
        have h2 := hnodup.1
        rw [h] at h2
        exact h2 hcn
      obtain ⟨j, hj, hl⟩ := ih (base + 1) c hnodup.2 hmem
      refine ⟨j + 1, by simp only [List.length_cons]; omega, ?_⟩
      show lookupInfo ((nameOf qd.1, L + base, leafCount qd.1) :: mkInfo L (base+1) rest) _ = _
      rw [lookupInfo, if_neg hne, hl]
      have : L + (base + 1) + j = L + base + (j + 1) := by omega
      rw [this]

theorem expLabels_append {α : Type} (ps qs : List (ClusterTree α × Nat)) :
    expLabels (ps ++ qs) = expLabels ps ++ expLabels qs := by
  unfold expLabels
  exact List.flatMap_append ps qs _

theorem expLabels_single {α : Type} (q : ClusterTree α) (d : Nat) :
    expLabels [(q, d)] = pairLeafNames (leftOf q, rightOf q) := by
  simp [expLabels, pairLeafNames]

theorem mergePair_eval {α : Type} (L d : Nat) (st : LinkState) (q : ClusterTree α)
    (ps : List (ClusterTree α × Nat))
    (hni : st.nodeIndex = (expLabels ps).length)
    (hlc : st.linkCount = ps.length)
    (hlab : st.labels = expLabels ps)
    (hinfo : st.info = mkInfo L 0 ps)
    (hq : isLeafB q = false)
    (hl0 : nameOf (leftOf q) = nameOf q ++ [0])
    (hnodup : (ps.map (fun qd => nameOf qd.1)).Nodup)
    (hcl : isLeafB (leftOf q) = false → leftOf q ∈ ps.map (fun qd => qd.1))
    (hcr : isLeafB (rightOf q) = false → rightOf q ∈ ps.map (fun qd => qd.1)) :
    ∃ li ri,
      mergePair L d st (leftOf q, rightOf q) =
        { nodeIndex := (expLabels (ps ++ [(q, d)])).length
          linkCount := ps.length + 1
          rows := st.rows ++ [⟨li, ri, d, leafCount q⟩]
          labels := expLabels (ps ++ [(q, d)])
          info := mkInfo L 0 (ps ++ [(q, d)]) } ∧
      (li < (expLabels (ps ++ [(q, d)])).length ∨ (L ≤ li ∧ li < L + ps.length)) ∧
      (ri < (expLabels (ps ++ [(q, d)])).length ∨ (L ≤ ri ∧ ri < L + ps.length)) := by
  have hlq : leafCount q = leafCount (leftOf q) + leafCount (rightOf q) :=
    leafCount_internal q hq
  have hdrop : (nameOf (leftOf q)).dropLast = nameOf q := by rw [hl0]; simp
  have hmk : mkInfo L 0 (ps ++ [(q, d)]) =
      mkInfo L 0 ps ++ [(nameOf q, L + ps.length, leafCount q)] := by
    rw [mkInfo_append]
    simp [mkInfo]
  have hexp : expLabels (ps ++ [(q, d)]) =
      expLabels ps ++ pairLeafNames (leftOf q, rightOf q) := by
    rw [expLabels_append, expLabels_single]
  cases hL : isLeafB (leftOf q) with
  | true =>
    have hcL : leafCount (leftOf q) = 1 := leafCount_of_leaf _ hL
    cases hR : isLeafB (rightOf q) with
    | true =>
      have hcR : leafCount (rightOf q) = 1 := leafCount_of_leaf _ hR
      have hpl : pairLeafNames (leftOf q, rightOf q) =
          [nameOf (leftOf q), nameOf (rightOf q)] := by
        simp [pairLeafNames, hL, hR]
      refine ⟨st.nodeIndex, st.nodeIndex + 1, ?_, ?_, ?_⟩
      · simp only [mergePair, resolveNode, hL, hR, if_true]
        rw [hexp, hpl, hmk]
        simp [hni, hlc, hlab, hinfo, hdrop, hlq, hcL, hcR]
        omega
      · rw [hexp, hpl]
        left
        simp [hni]
      · rw [hexp, hpl]
        left
        simp [hni]
    | false =>
      obtain ⟨j, hj, hlook⟩ := lookupInfo_mkInfo L ps 0 (rightOf q) hnodup (hcr hR)
      have hpl : pairLeafNames (leftOf q, rightOf q) = [nameOf (leftOf q)] := by
        simp [pairLeafNames, hL, hR]
      refine ⟨st.nodeIndex, L + j, ?_, ?_, ?_⟩
      · simp only [mergePair, resolveNode, hL, hR, if_true, if_false]
        rw [hexp, hpl, hmk]
        simp [hni, hlc, hlab, hinfo, hdrop, hlq, hcL, hlook]
        omega
      · rw [hexp, hpl]
        left
        simp [hni]
      · right
        omega
  | false =>
    obtain ⟨jl, hjl, hlookl⟩ := lookupInfo_mkInfo L ps 0 (leftOf q) hnodup (hcl hL)
    cases hR : isLeafB (rightOf q) with
    | true =>
      have hcR : leafCount (rightOf q) = 1 := leafCount_of_leaf _ hR
      have hpl : pairLeafNames (leftOf q, rightOf q) = [nameOf (rightOf q)] := by
        simp [pairLeafNames, hL, hR]
      refine ⟨L + jl, st.nodeIndex, ?_, ?_, ?_⟩
      · simp only [mergePair, resolveNode, hL, hR, if_true, if_false]
        rw [hexp, hpl, hmk]
        simp [hni, hlc, hlab, hinfo, hdrop, hlq, hcR, hlookl]
        omega
      · right
        omega
      · rw [hexp, hpl]
        left
        simp [hni]
    | false =>
      obtain ⟨jr, hjr, hlookr⟩ := lookupInfo_mkInfo L ps 0 (rightOf q) hnodup (hcr hR)
      have hpl : pairLeafNames (leftOf q, rightOf q) = [] := by
        simp [pairLeafNames, hL, hR]
      refine ⟨L + jl, L + jr, ?_, ?_, ?_⟩
      · simp only [mergePair, resolveNode, hL, hR, if_false]
        rw [hexp, hpl, hmk]
        simp [hni, hlc, hlab, hinfo, hdrop, hlq, hlookl, hlookr]
        omega
      · right
        omega
      · right
        omega

theorem linkGroup_inv {α : Type} (L d : Nat) :
    ∀ (gs : List (ClusterTree α)) (ps : List (ClusterTree α × Nat)) (st : LinkState),
      st.nodeIndex = (expLabels ps).length →
      st.linkCount = ps.length →
      st.labels = expLabels ps →
      st.info = mkInfo L 0 ps →
      st.rows.length = ps.length →
      (∀ k, k < st.rows.length →
        (st.rows.getD k ⟨0, 0, 0, 0⟩).leftId < L + k ∧
        (st.rows.getD k ⟨0, 0, 0, 0⟩).rightId < L + k) →
      ((ps ++ gs.map (fun q => (q, d))).map (fun qd => nameOf qd.1)).Nodup →
      (expLabels (ps ++ gs.map (fun q => (q, d)))).length ≤ L →
      (∀ q ∈ gs, isLeafB q = false ∧
        nameOf (leftOf q) = nameOf q ++ [0] ∧
        (isLeafB (leftOf q) = false → leftOf q ∈ ps.map (fun qd => qd.1)) ∧
        (isLeafB (rightOf q) = false → rightOf q ∈ ps.map (fun qd => qd.1))) →
      (gs.foldl (fun s q => mergePair L d s (leftOf q, rightOf q)) st).nodeIndex =
          (expLabels (ps ++ gs.map (fun q => (q, d)))).length ∧
      (gs.foldl (fun s q => mergePair L d s (leftOf q, rightOf q)) st).linkCount =
          ps.length + gs.length ∧
      (gs.foldl (fun s q => mergePair L d s (leftOf q, rightOf q)) st).labels =
          expLabels (ps ++ gs.map (fun q => (q, d))) ∧
      (gs.foldl (fun s q => mergePair L d s (leftOf q, rightOf q)) st).info =
          mkInfo L 0 (ps ++ gs.map (fun q => (q, d))) ∧
      (gs.foldl (fun s q => mergePair L d s (leftOf q, rightOf q)) st).rows.length =
          ps.length + gs.length ∧
      (∀ k, k <
          (gs.foldl (fun s q => mergePair L d s (leftOf q, rightOf q)) st).rows.length →
        ((gs.foldl (fun s q => mergePair L d s (leftOf q, rightOf q)) st).rows.getD
            k ⟨0, 0, 0, 0⟩).leftId < L + k ∧
        ((gs.foldl (fun s q => mergePair L d s (leftOf q, rightOf q)) st).rows.getD
            k ⟨0, 0, 0, 0⟩).rightId < L + k) := by
  intro gs
  induction gs with
  | nil =>
    intro ps st hni hlc hlab hinfo hrl hrows hnodup hle hcond
    simp only [List.foldl_nil, List.map_nil, List.append_nil]
    exact ⟨hni, by simp [hlc], hlab, hinfo, by simp [hrl], hrows⟩
  | cons q rest ih =>
    intro ps st hni hlc hlab hinfo hrl hrows hnodup hle hcond
    obtain ⟨hq, hl0, hcl, hcr⟩ := hcond q (List.mem_cons_self q rest)
    have harr : ps ++ (q :: rest).map (fun q => (q, d)) =
        (ps ++ [(q, d)]) ++ rest.map (fun q => (q, d)) := by simp
    obtain ⟨li, ri, heq, hbl, hbr⟩ :=
      mergePair_eval L d st q ps hni hlc hlab hinfo hq hl0
        (by
          have hnodup2 := hnodup
          rw [List.map_append, List.nodup_append] at hnodup2
          exact hnodup2.1)
        hcl hcr
    have hexple : (expLabels (ps ++ [(q, d)])).length ≤ L := by
      rw [harr, expLabels_append, List.length_append] at hle
      omega
    rw [List.foldl_cons]
    rw [harr]
    have hni2 : (mergePair L d st (leftOf q, rightOf q)).nodeIndex =
        (expLabels (ps ++ [(q, d)])).length := by rw [heq]
    have hlc2 : (mergePair L d st (leftOf q, rightOf q)).linkCount =
        (ps ++ [(q, d)]).length := by rw [heq]; simp
    have hlab2 : (mergePair L d st (leftOf q, rightOf q)).labels =
        expLabels (ps ++ [(q, d)]) := by rw [heq]
    have hinfo2 : (mergePair L d st (leftOf q, rightOf q)).info =
        mkInfo L 0 (ps ++ [(q, d)]) := by rw [heq]
    have hrl2 : (mergePair L d st (leftOf q, rightOf q)).rows.length =
        (ps ++ [(q, d)]).length := by rw [heq]; simp [hrl]
    have hrows2 : ∀ k, k < (mergePair L d st (leftOf q, rightOf q)).rows.length →
        ((mergePair L d st (leftOf q, rightOf q)).rows.getD k ⟨0, 0, 0, 0⟩).leftId < L + k ∧
        ((mergePair L d st (leftOf q, rightOf q)).rows.getD k ⟨0, 0, 0, 0⟩).rightId < L + k := by
      intro k hk
      rw [heq] at hk ⊢
      by_cases hkk : k < st.rows.length
      · rw [List.getD_append _ _ _ _ hkk]
        exact hrows k hkk
      · have hke : k = st.rows.length := by
          simp only [List.length_append, List.length_cons, List.length_nil] at hk
          omega
        subst hke
        rw [show (st.rows ++ [(⟨li, ri, d, leafCount q⟩ : LinkRow)]).getD
            st.rows.length ⟨0, 0, 0, 0⟩ = ⟨li, ri, d, leafCount q⟩ from by
          simp [List.getD]]
        rw [hrl] at *
        show li < L + ps.length ∧ ri < L + ps.length
        constructor
        · rcases hbl with h | h
          · omega
          · omega
        · rcases hbr with h | h
          · omega
          · omega
    have := ih (ps ++ [(q, d)]) (mergePair L d st (leftOf q, rightOf q))
      hni2 hlc2 hlab2 hinfo2 hrl2 hrows2
      (by rw [← harr]; exact hnodup)
      (by rw [← harr]; exact hle)
      (by
        intro q2 hq2
        obtain ⟨a, b, c, e⟩ := hcond q2 (List.mem_cons_of_mem q hq2)
        refine ⟨a, b, ?_, ?_⟩
        · intro hx
          have := c hx
          rw [List.map_append]
          exact List.mem_append_left _ this
        · intro hx
          have := e hx
          rw [List.map_append]
          exact List.mem_append_left _ this)
    obtain ⟨c1, c2, c3, c4, c5, c6⟩ := this
    refine ⟨c1, by rw [c2]; simp; omega, c3, c4, by rw [c5]; simp; omega, c6⟩

theorem linkage_outer_inv {α : Type} (nm : List Nat) (t : ClusterTree α)
    (hwf : WF nm t) (hroot : isLeafB t = false) :
    ∀ m, m ≤ heightOf t →
      (((levelPairs t).take m).foldl
          (fun st gp => gp.1.foldl (mergePair (leafCount t) gp.2) st)
          initLinkState).nodeIndex =
        (expLabels ((List.range m).flatMap (fun g =>
          (internalsAt (heightOf t - 1 - g) t).map (fun q => (q, g + 1))))).length ∧
      (((levelPairs t).take m).foldl
          (fun st gp => gp.1.foldl (mergePair (leafCount t) gp.2) st)
          initLinkState).linkCount =
        ((List.range m).flatMap (fun g =>
          (internalsAt (heightOf t - 1 - g) t).map (fun q => (q, g + 1)))).length ∧
      (((levelPairs t).take m).foldl
          (fun st gp => gp.1.foldl (mergePair (leafCount t) gp.2) st)
          initLinkState).labels =
        expLabels ((List.range m).flatMap (fun g =>
          (internalsAt (heightOf t - 1 - g) t).map (fun q => (q, g + 1)))) ∧
      (((levelPairs t).take m).foldl
          (fun st gp => gp.1.foldl (mergePair (leafCount t) gp.2) st)
          initLinkState).info =
        mkInfo (leafCount t) 0 ((List.range m).flatMap (fun g =>
          (internalsAt (heightOf t - 1 - g) t).map (fun q => (q, g + 1)))) ∧
      (((levelPairs t).take m).foldl
          (fun st gp => gp.1.foldl (mergePair (leafCount t) gp.2) st)
          initLinkState).rows.length =
        ((List.range m).flatMap (fun g =>
          (internalsAt (heightOf t - 1 - g) t).map (fun q => (q, g + 1)))).length ∧
      (∀ k, k < (((levelPairs t).take m).foldl
          (fun st gp => gp.1.foldl (mergePair (leafCount t) gp.2) st)
          initLinkState).rows.length →
        ((((levelPairs t).take m).foldl
            (fun st gp => gp.1.foldl (mergePair (leafCount t) gp.2) st)
            initLinkState).rows.getD k ⟨0, 0, 0, 0⟩).leftId < leafCount t + k ∧
        ((((levelPairs t).take m).foldl
            (fun st gp => gp.1.foldl (mergePair (leafCount t) gp.2) st)
            initLinkState).rows.getD k ⟨0, 0, 0, 0⟩).rightId < leafCount t + k) := by
  intro m
  induction m with
  | zero =>
    intro _
    refine ⟨rfl, rfl, rfl, rfl, rfl, ?_⟩
    intro k hk
    simp [initLinkState] at hk
  | succ m ih =>
    intro hm
    obtain ⟨i1, i2, i3, i4, i5, i6⟩ := ih (by omega)
    have hps : (List.range (m+1)).flatMap (fun g =>
        (internalsAt (heightOf t - 1 - g) t).map (fun q => (q, g + 1))) =
        ((List.range m).flatMap (fun g =>
          (internalsAt (heightOf t - 1 - g) t).map (fun q => (q, g + 1)))) ++
        (internalsAt (heightOf t - 1 - m) t).map (fun q => (q, m + 1)) := by
      rw [List.range_succ, List.flatMap_append]
      simp
    have htake : (levelPairs t).take (m+1) = (levelPairs t).take m ++
        [(pairUp (nodesAtDepth (heightOf t - m) t), m + 1)] := by
      unfold levelPairs
      rw [← List.map_take, ← List.map_take, List.take_range, List.take_range]
      have h1 : min (m+1) (heightOf t) = m + 1 := by omega
      have h2 : min m (heightOf t) = m := by omega
      rw [h1, h2, List.range_succ, List.map_append]
      rfl
    have hstep : ((levelPairs t).take (m+1)).foldl
        (fun st gp => gp.1.foldl (mergePair (leafCount t) gp.2) st) initLinkState =
        (internalsAt (heightOf t - 1 - m) t).foldl
          (fun s q => mergePair (leafCount t) (m+1) s (leftOf q, rightOf q))
          (((levelPairs t).take m).foldl
            (fun st gp => gp.1.foldl (mergePair (leafCount t) gp.2) st) initLinkState) := by
      rw [htake, List.foldl_append]
      have hdm : heightOf t - m = (heightOf t - 1 - m) + 1 := by omega
      rw [List.foldl_cons, List.foldl_nil, hdm, pairUp_level, List.foldl_map]
    have hgrp := linkGroup_inv (leafCount t) (m+1) (internalsAt (heightOf t - 1 - m) t)
      ((List.range m).flatMap (fun g =>
        (internalsAt (heightOf t - 1 - g) t).map (fun q => (q, g + 1))))
      (((levelPairs t).take m).foldl
        (fun st gp => gp.1.foldl (mergePair (leafCount t) gp.2) st) initLinkState)
      i1 i2 i3 i4 i5 i6
      (by rw [← hps]; exact groups_names_nodup nm t hwf (m+1) hm)
      (by
        rw [← hps, expLabels_groups t (m+1) hm]
        exact groups_labels_le t hroot (m+1) hm)
      (by
        intro q hq
        have hqmem : q ∈ nodesAtDepth (heightOf t - 1 - m) t := List.mem_of_mem_filter hq
        have hqleaf : isLeafB q = false := mem_internalsAt_isLeafB _ t q hq
        obtain ⟨nm2, hwf2⟩ := WF_mem_nodesAtDepth _ nm t q hwf hqmem
        obtain ⟨hn1, hn2⟩ := WF_children_names hwf2 hqleaf
        have hchild : ∀ c, (c = leftOf q ∨ c = rightOf q) → isLeafB c = false →
            c ∈ ((List.range m).flatMap (fun g =>
              (internalsAt (heightOf t - 1 - g) t).map (fun q => (q, g + 1)))).map
              (fun qd => qd.1) := by
          intro c hc hcleaf
          have hcm : c ∈ nodesAtDepth (heightOf t - 1 - m + 1) t := by
            rw [nodesAtDepth_succ]
            apply List.mem_flatMap.mpr
            refine ⟨q, hq, ?_⟩
            rw [childrenOf_internal q hqleaf]
            rcases hc with rfl | rfl
            · simp
            · simp
          rcases Nat.eq_zero_or_pos m with rfl | hmpos
          · exfalso
            have : heightOf t - 1 - 0 + 1 = heightOf t := by omega
            rw [this] at hcm
            have := mem_nodesAtDepth_top_isLeaf t c hcm
            rw [hcleaf] at this
            exact Bool.false_ne_true this
          · have hd : heightOf t - 1 - m + 1 = heightOf t - 1 - (m - 1) := by omega
            rw [hd] at hcm
            have hcint : c ∈ internalsAt (heightOf t - 1 - (m-1)) t :=
              List.mem_filter.mpr ⟨hcm, by simp [hcleaf]⟩
            apply List.mem_map.mpr
            refine ⟨(c, (m-1) + 1), ?_, rfl⟩
            apply List.mem_flatMap.mpr
            refine ⟨m - 1, List.mem_range.mpr (by omega), ?_⟩
            exact List.mem_map.mpr ⟨c, hcint, rfl⟩
        exact ⟨hqleaf, hn1,
          fun hx => hchild (leftOf q) (Or.inl rfl) hx,
          fun hx => hchild (rightOf q) (Or.inr rfl) hx⟩)
    rw [hstep, hps]
    obtain ⟨c1, c2, c3, c4, c5, c6⟩ := hgrp
    refine ⟨c1, ?_, c3, c4, ?_, c6⟩
    · rw [c2, List.length_append, List.length_map]
    · rw [c5, List.length_append, List.length_map]

theorem levelPairs_length {α : Type} (t : ClusterTree α) :
    (levelPairs t).length = heightOf t := by
  simp [levelPairs]

theorem parentsList_length {α : Type} (t : ClusterTree α) :
    (parentsList t).length = internalCount t := by
  unfold parentsList
  rw [List.length_flatMap]
  have hmap : (List.range (heightOf t)).map (List.length ∘ fun g =>
      (internalsAt (heightOf t - 1 - g) t).map (fun q => (q, g + 1))) =
      (List.range (heightOf t)).map (fun g =>
        (fun d => (internalsAt d t).length) (heightOf t - 1 - g)) := by
    apply List.map_congr_left
    intro g _
    simp [Function.comp]
  rw [hmap]
  exact (sum_map_range_reflect (fun d => (internalsAt d t).length) (heightOf t)).trans
    (sum_internalsAt t)

theorem mkInfo_getD_ind {α : Type} (L : Nat) (ps : List (ClusterTree α × Nat))
    (j : Nat) (hj : j < ps.length) :
    ((mkInfo L 0 ps).getD j ([], 0, 0)).2.1 = L + j := by
  have hlen : j < (mkInfo L 0 ps).length := by rw [mkInfo_length]; exact hj
  rw [List.getD_eq_getElem _ _ hlen]
  have h := mkInfo_get_ind L ps 0 j hlen
  have h2 : (mkInfo L 0 ps)[j].2.1 = L + 0 + j := by
    rw [List.get_eq_getElem] at h
    simpa using h
  omega

/-- C2 (amended): for every fitted tree whose root was split (at least one
internal node), `build_linkage` returns exactly `K = internalCount` rows;
the leaves are assigned the sequential ids `0..L-1` in bottom-up level
discovery order (the final `node_index` is `L` and the label list is exactly
the bottom-up leaf-name sequence of length `L`); the internal nodes are
assigned the ids `L..L+K-1` in merge-emission order (the `j`-th stored
`_ind` is `L + j`); and no row references a forward id: both ids of the
`j`-th row are below `L + j` (a leaf id below `L`, assigned at the moment
the row is emitted, or the id of an earlier merge).  On a fitted tree whose
root is a leaf, `build_linkage` emits `K = 0` rows but assigns no leaf ids
at all, so the unrestricted claim fails (see the counterexample). -/
theorem C2_linkage_wellformed {α : Type} (oracle : List α → ClusterModel α)
    (minSplit fuel : Nat) (X : List α) (t : ClusterTree α)
    (ht : t = DivisiveCluster.fit oracle minSplit fuel [] X)
    (hroot : isLeafB t = false) :
    (DivisiveCluster.build_linkage t).1.length = internalCount t ∧
    (DivisiveCluster.build_linkage t).2 = bottomUpLeafNames t ∧
    (DivisiveCluster.build_linkage t).2.length = leafCount t ∧
    (buildLinkageState t).nodeIndex = leafCount t ∧
    (buildLinkageState t).info.length = internalCount t ∧
    (∀ j, j < internalCount t →
      ((buildLinkageState t).info.getD j ([], 0, 0)).2.1 = leafCount t + j) ∧
    (∀ j, j < (DivisiveCluster.build_linkage t).1.length →
      ((DivisiveCluster.build_linkage t).1.getD j ⟨0, 0, 0, 0⟩).leftId <
        leafCount t + j ∧
      ((DivisiveCluster.build_linkage t).1.getD j ⟨0, 0, 0, 0⟩).rightId <
        leafCount t + j) := by
  have hwf : WF [] t := by rw [ht]; exact WF_fit oracle minSplit fuel [] X
  have hfull : (levelPairs t).take (heightOf t) = levelPairs t := by
    rw [← levelPairs_length t, List.take_length]
  have hbs : ((levelPairs t).take (heightOf t)).foldl
      (fun st gp => gp.1.foldl (mergePair (leafCount t) gp.2) st) initLinkState =
      buildLinkageState t := by
    rw [hfull]
    rfl
  obtain ⟨o1, o2, o3, o4, o5, o6⟩ :=
    linkage_outer_inv [] t hwf hroot (heightOf t) (Nat.le_refl _)
  rw [hbs] at o1 o2 o3 o4 o5 o6
  have hpl : (List.range (heightOf t)).flatMap (fun g =>
      (internalsAt (heightOf t - 1 - g) t).map (fun q => (q, g + 1))) =
      parentsList t := rfl
  rw [hpl] at o1 o2 o3 o4 o5
  have hlabels : expLabels (parentsList t) = bottomUpLeafNames t := by
    rw [← hpl, expLabels_groups t (heightOf t) (Nat.le_refl _)]
    rfl
  have hlablen : (bottomUpLeafNames t).length = leafCount t :=
    bottomUpLeafNames_length t hroot
  refine ⟨?_, ?_, ?_, ?_, ?_, ?_, ?_⟩
  · show (buildLinkageState t).rows.length = internalCount t
    rw [o5, parentsList_length]
  · show (buildLinkageState t).labels = bottomUpLeafNames t
    rw [o3, hlabels]
  · show (buildLinkageState t).labels.length = leafCount t
    rw [o3, hlabels, hlablen]
  · rw [o1, hlabels, hlablen]
  · rw [o4, mkInfo_length, parentsList_length]
  · intro j hj
    rw [o4]
    exact mkInfo_getD_ind (leafCount t) (parentsList t) j
      (by rw [parentsList_length]; exact hj)
  · intro j hj
    exact o6 j hj

/-- Witness for C2 at the uneven-depth fitted tree (three leaves, two
internal nodes, leaves at depths 1 and 2). -/
theorem C2_witness :
    (unevenTree = DivisiveCluster.fit unevenOracle 3 4 [] (List.range 10) ∧
      isLeafB unevenTree = false) ∧
    ((DivisiveCluster.build_linkage unevenTree).1.length = internalCount unevenTree ∧
     (DivisiveCluster.build_linkage unevenTree).2 = bottomUpLeafNames unevenTree ∧
     (DivisiveCluster.build_linkage unevenTree).2.length = leafCount unevenTree ∧
     (buildLinkageState unevenTree).nodeIndex = leafCount unevenTree ∧
     (buildLinkageState unevenTree).info.length = internalCount unevenTree ∧
     (∀ j, j < internalCount unevenTree →
       ((buildLinkageState unevenTree).info.getD j ([], 0, 0)).2.1 =
         leafCount unevenTree + j) ∧
     (∀ j, j < (DivisiveCluster.build_linkage unevenTree).1.length →
       ((DivisiveCluster.build_linkage unevenTree).1.getD j ⟨0, 0, 0, 0⟩).leftId <
         leafCount unevenTree + j ∧
       ((DivisiveCluster.build_linkage unevenTree).1.getD j ⟨0, 0, 0, 0⟩).rightId <
         leafCount unevenTree + j)) :=
  ⟨⟨rfl, by decide⟩,
    C2_linkage_wellformed unevenOracle 3 4 (List.range 10) unevenTree rfl (by decide)⟩

/-- Counterexample to C2 as stated: a fitted tree whose root is a leaf has
`L = 1` leaf and `K = 0` internal nodes; `build_linkage` correctly returns
0 rows, but it assigns no leaf ids at all (the label list is empty), so the
leaf does not receive the id `0` required by the claim for every fitted
tree. -/
theorem C2_counterexample :
    leafCount singletonTree = 1 ∧
    DivisiveCluster.build_linkage singletonTree = ([], []) ∧
    (DivisiveCluster.build_linkage singletonTree).2.length ≠ leafCount singletonTree := by
  decide
